import Mathlib

/-!
Verification development for the Ronin streaming tool-call engine.

The definitions below are shallow embeddings of the JavaScript source:
  * a JSON value model with a `JSON.parse` / `JSON.stringify` embedding
    (numbers keep their source lexeme: the claims checked here never
    compare numeric values across different spellings, and this avoids
    modelling IEEE doubles);
  * the carry-buffer line splitter and stream-event extraction of
    `getClaudeResponse` (src/api.js) and `OllamaProvider.streamResponse`;
  * the per-round tool-call orchestration of `getClaudeResponse`
    (conversation assembly, permission gating, tool dispatch), with the
    IO collaborators (tool manager, approval prompt) as oracles and the
    display-only yield strings abstracted to tagged fragments;
  * `PermissionCache` (key generation, canonicalization, TTL expiry,
    always-ask override), with the SHA-256 digest abstracted to an
    arbitrary hash function, since no claim depends on digest internals;
  * `MCPManager` connect/disconnect/reload and `CommandService.mcpReload`;
  * `BuiltInServer.executeTool` with its declared tool schemas, over an
    abstract world for file-system / process / network effects;
  * the `${VAR}` environment-placeholder expansion of
    `MCPClient.connectStdio`.

Streams are modelled at the decoded-text level (`Buffer.toString` is the
identity on the chunk strings); all counterexamples below use pure ASCII
chunks, for which character offsets and byte offsets coincide.
-/

/-- A JSON value as produced by `JSON.parse`.  Numbers carry their source
lexeme; objects are ordered member lists (JS insertion order). -/
inductive JVal where
  | jnull
  | jbool (b : Bool)
  | jnum (lexeme : String)
  | jstr (s : String)
  | jarr (elems : List JVal)
  | jobj (members : List (String × JVal))
deriving Repr, BEq, Inhabited

/-- JS member access `o.k` on a parse result: with duplicate keys,
`JSON.parse` keeps the last occurrence; absent keys give `none`
(JS `undefined`). -/
def JVal.getF : JVal → String → Option JVal
  | .jobj ms, k => (ms.reverse.lookup k)
  | _, _ => none

/-- JS truthiness on JSON values: `false`, `null`, `0` and `""` are falsy. -/
def JVal.truthy : JVal → Bool
  | .jnull => false
  | .jbool b => b
  | .jnum lx => !(lx == "0" || lx == "-0" || lx == "0.0")
  | .jstr s => !(s == "")
  | .jarr _ => true
  | .jobj _ => true

/-- JS string coercion (as in `"" + v` or a template literal), restricted to
JSON values.  Arrays and objects only appear coerced in display strings the
model abstracts, so a schematic rendering suffices there. -/
def JVal.coerceStr : JVal → String
  | .jnull => "null"
  | .jbool b => if b then "true" else "false"
  | .jnum lx => lx
  | .jstr s => s
  | .jarr _ => ""
  | .jobj _ => "[object Object]"

/-- `undefined`-tolerant string coercion: JS renders `undefined` as the word. -/
def jsStr : Option JVal → String
  | some v => v.coerceStr
  | none => "undefined"

/-! ### `JSON.parse` embedding (fuel-recursive, total) -/

def jsonWs (c : Char) : Bool :=
  c == ' ' || c == '\t' || c == '\n' || c == '\r'

def jsonDigit (c : Char) : Bool := '0' ≤ c && c ≤ '9'

def dropWs : List Char → List Char
  | [] => []
  | c :: cs => if jsonWs c then dropWs cs else c :: cs

def spanDigits : List Char → List Char × List Char
  | [] => ([], [])
  | c :: cs =>
    if jsonDigit c then
      let p := spanDigits cs
      (c :: p.1, p.2)
    else ([], c :: cs)

def hexDigitVal (c : Char) : Option Nat :=
  if '0' ≤ c && c ≤ '9' then some (c.toNat - 48)
  else if 'a' ≤ c && c ≤ 'f' then some (c.toNat - 97 + 10)
  else if 'A' ≤ c && c ≤ 'F' then some (c.toNat - 65 + 10)
  else none

/-- One short escape after a backslash in a JSON string. -/
def jsonEscChar : Char → Option Char
  | '"' => some '"'
  | '\\' => some '\\'
  | '/' => some '/'
  | 'b' => some (Char.ofNat 8)
  | 'f' => some (Char.ofNat 12)
  | 'n' => some '\n'
  | 'r' => some '\r'
  | 't' => some '\t'
  | _ => none

/-- String body after the opening quote.  Raw control characters are
rejected as in `JSON.parse`.  A `\uXXXX` escape becomes `Char.ofNat`
(lone surrogates, unrepresentable in Lean strings, degrade to U+0000;
no claim exercises them). -/
def scanJsonStr (acc : List Char) : List Char → Option (String × List Char)
  | [] => none
  | c :: cs =>
    if c == '"' then some (String.mk acc.reverse, cs)
    else if c == '\\' then
      match cs with
      | 'u' :: a :: b :: e :: d :: rest =>
        match hexDigitVal a, hexDigitVal b, hexDigitVal e, hexDigitVal d with
        | some va, some vb, some ve, some vd =>
          scanJsonStr (Char.ofNat (((va * 16 + vb) * 16 + ve) * 16 + vd) :: acc) rest
        | _, _, _, _ => none
      | e :: rest =>
        match jsonEscChar e with
        | some ch => scanJsonStr (ch :: acc) rest
        | none => none
      | [] => none
    else if c.toNat < 32 then none
    else scanJsonStr (c :: acc) cs

/-- JSON number lexeme: `-?(0|[1-9][0-9]*)(\.[0-9]+)?([eE][+-]?[0-9]+)?`. -/
def scanJsonNum (cs : List Char) : Option (String × List Char) :=
  let (sign, cs1) := match cs with
    | '-' :: r => (['-'], r)
    | _ => (([] : List Char), cs)
  match cs1 with
  | [] => none
  | c :: _ =>
    if !jsonDigit c then none
    else
      let (ds, cs2) := spanDigits cs1
      if ds.length > 1 && ds.headI == '0' then none
      else
        let (frac, cs3) := match cs2 with
          | '.' :: r =>
            let p := spanDigits r
            if p.1.isEmpty then (none, cs2) else (some ('.' :: p.1), p.2)
          | _ => (none, cs2)
        match frac, cs3 with
        | none, '.' :: _ => none
        | _, _ =>
          let (ex, cs4) := match cs3 with
            | e :: r =>
              if e == 'e' || e == 'E' then
                let (sg, r2) := match r with
                  | s :: r3 => if s == '+' || s == '-' then ([s], r3) else ([], r)
                  | [] => ([], r)
                let p := spanDigits r2
                if p.1.isEmpty then (none, cs3) else (some (e :: (sg ++ p.1)), p.2)
              else (none, cs3)
            | [] => (none, cs3)
          match ex, cs4 with
          | none, e :: _ =>
            if e == 'e' || e == 'E' then none
            else some (String.mk (sign ++ ds ++ (frac.getD []) ), cs4)
          | _, _ => some (String.mk (sign ++ ds ++ (frac.getD []) ++ (ex.getD [])), cs4)

mutual

/-- One JSON value (leading whitespace already consumed). -/
def scanJsonVal (fuel : Nat) (cs : List Char) : Option (JVal × List Char) :=
  match fuel with
  | 0 => none
  | fuel + 1 =>
    match cs with
    | [] => none
    | c :: rest =>
      if c == '"' then
        match scanJsonStr [] rest with
        | some (s, r) => some (.jstr s, r)
        | none => none
      else if c == '\x7b' then
        scanJsonMembers fuel (dropWs rest) true
      else if c == '[' then
        scanJsonElems fuel (dropWs rest) true
      else if c == 't' then
        match rest with
        | 'r' :: 'u' :: 'e' :: r => some (.jbool true, r)
        | _ => none
      else if c == 'f' then
        match rest with
        | 'a' :: 'l' :: 's' :: 'e' :: r => some (.jbool false, r)
        | _ => none
      else if c == 'n' then
        match rest with
        | 'u' :: 'l' :: 'l' :: r => some (.jnull, r)
        | _ => none
      else
        match scanJsonNum cs with
        | some (lx, r) => some (.jnum lx, r)
        | none => none

/-- Object members after `{` (whitespace consumed); `first` marks the state
before any member has been read. -/
def scanJsonMembers (fuel : Nat) (cs : List Char) (first : Bool) :
    Option (JVal × List Char) :=
  match fuel with
  | 0 => none
  | fuel + 1 =>
    match cs with
    | '\x7d' :: r =>
      if first then some (.jobj [], r) else none
    | '"' :: r =>
      match scanJsonStr [] r with
      | none => none
      | some (k, r2) =>
        match dropWs r2 with
        | ':' :: r3 =>
          match scanJsonVal fuel (dropWs r3) with
          | none => none
          | some (v, r4) =>
            match scanJsonMembersTail fuel (dropWs r4) with
            | none => none
            | some (ms, r5) => some (.jobj ((k, v) :: ms), r5)
        | _ => none
    | _ => none

/-- After one object member: either `}` or `, "key": value …`. -/
def scanJsonMembersTail (fuel : Nat) (cs : List Char) :
    Option (List (String × JVal) × List Char) :=
  match fuel with
  | 0 => none
  | fuel + 1 =>
    match cs with
    | '\x7d' :: r => some ([], r)
    | ',' :: r =>
      match dropWs r with
      | '"' :: r1 =>
        match scanJsonStr [] r1 with
        | none => none
        | some (k, r2) =>
          match dropWs r2 with
          | ':' :: r3 =>
            match scanJsonVal fuel (dropWs r3) with
            | none => none
            | some (v, r4) =>
              match scanJsonMembersTail fuel (dropWs r4) with
              | none => none
              | some (ms, r5) => some ((k, v) :: ms, r5)
          | _ => none
      | _ => none
    | _ => none

/-- Array elements after `[` (whitespace consumed). -/
def scanJsonElems (fuel : Nat) (cs : List Char) (first : Bool) :
    Option (JVal × List Char) :=
  match fuel with
  | 0 => none
  | fuel + 1 =>
    match cs with
    | ']' :: r =>
      if first then some (.jarr [], r) else none
    | _ =>
      match scanJsonVal fuel cs with
      | none => none
      | some (v, r) =>
        match scanJsonElemsTail fuel (dropWs r) with
        | none => none
        | some (vs, r2) => some (.jarr (v :: vs), r2)

/-- After one array element: either `]` or `, value …`. -/
def scanJsonElemsTail (fuel : Nat) (cs : List Char) :
    Option (List JVal × List Char) :=
  match fuel with
  | 0 => none
  | fuel + 1 =>
    match cs with
    | ']' :: r => some ([], r)
    | ',' :: r =>
      match scanJsonVal fuel (dropWs r) with
      | none => none
      | some (v, r2) =>
        match scanJsonElemsTail fuel (dropWs r2) with
        | none => none
        | some (vs, r3) => some (v :: vs, r3)
    | _ => none

end

/-- `JSON.parse` on a whole text: one value, surrounded only by whitespace.
`none` models the thrown `SyntaxError`. -/
def jsonParse (s : String) : Option JVal :=
  let cs := dropWs s.data
  match scanJsonVal (cs.length + 1) cs with
  | some (v, rest) =>
    match dropWs rest with
    | [] => some v
    | _ => none
  | none => none

/-! ### `JSON.stringify` embedding -/

def hexDigitChar (n : Nat) : Char :=
  if n < 10 then Char.ofNat (48 + n) else Char.ofNat (97 + n - 10)

/-- Escape one character of a JSON string literal. -/
def jsonEscape (c : Char) : List Char :=
  if c == '"' then ['\\', '"']
  else if c == '\\' then ['\\', '\\']
  else if c == '\n' then ['\\', 'n']
  else if c == '\r' then ['\\', 'r']
  else if c == '\t' then ['\\', 't']
  else if c.toNat == 8 then ['\\', 'b']
  else if c.toNat == 12 then ['\\', 'f']
  else if c.toNat < 32 then
    ['\\', 'u', '0', '0', hexDigitChar (c.toNat / 16), hexDigitChar (c.toNat % 16)]
  else [c]

def quoteJsonStr (s : String) : String :=
  String.mk ('"' :: (s.data.map jsonEscape).flatten ++ ['"'])

/-- Two spaces per indentation level. -/
def indentOf (d : Nat) : String := String.mk (List.replicate (2 * d) ' ')

mutual

/-- Compact `JSON.stringify` (no spacing argument).  Numbers render their
stored lexeme (see the number-model note at the top of the file). -/
def jsonStringify : JVal → String
  | .jnull => "null"
  | .jbool b => if b then "true" else "false"
  | .jnum lx => lx
  | .jstr s => quoteJsonStr s
  | .jarr es => "[" ++ stringifyElems es ++ "]"
  | .jobj ms => "\x7b" ++ stringifyMembers ms ++ "\x7d"

def stringifyElems : List JVal → String
  | [] => ""
  | [v] => jsonStringify v
  | v :: vs => jsonStringify v ++ "," ++ stringifyElems vs

def stringifyMembers : List (String × JVal) → String
  | [] => ""
  | [(k, v)] => quoteJsonStr k ++ ":" ++ jsonStringify v
  | (k, v) :: ms => quoteJsonStr k ++ ":" ++ jsonStringify v ++ "," ++ stringifyMembers ms

end

mutual

/-- `JSON.stringify(v, null, 2)` at indentation depth `d` (in levels). -/
def jsonStringifyP (d : Nat) : JVal → String
  | .jnull => "null"
  | .jbool b => if b then "true" else "false"
  | .jnum lx => lx
  | .jstr s => quoteJsonStr s
  | .jarr [] => "[]"
  | .jarr es =>
    "[\n" ++ prettyElems (d + 1) es ++ "\n" ++ indentOf d ++ "]"
  | .jobj [] => "\x7b\x7d"
  | .jobj ms =>
    "\x7b\n" ++ prettyMembers (d + 1) ms ++ "\n" ++ indentOf d ++ "\x7d"

def prettyElems (d : Nat) : List JVal → String
  | [] => ""
  | [v] => indentOf d ++ jsonStringifyP d v
  | v :: vs => indentOf d ++ jsonStringifyP d v ++ ",\n" ++ prettyElems d vs

def prettyMembers (d : Nat) : List (String × JVal) → String
  | [] => ""
  | [(k, v)] => indentOf d ++ quoteJsonStr k ++ ": " ++ jsonStringifyP d v
  | (k, v) :: ms =>
    indentOf d ++ quoteJsonStr k ++ ": " ++ jsonStringifyP d v ++ ",\n" ++
      prettyMembers d ms

end

/-! ### JS string helpers used by the stream loops -/

/-- Characters removed by JS `String.prototype.trim` (the kinds that can
occur in these streams). -/
def jsTrimWs (c : Char) : Bool :=
  c == ' ' || c == '\t' || c == '\n' || c == '\r' ||
    c.toNat == 11 || c.toNat == 12 || c.toNat == 160 || c.toNat == 65279

def jsTrimL (cs : List Char) : List Char := cs.dropWhile jsTrimWs

def jsTrimList (cs : List Char) : List Char :=
  ((cs.dropWhile jsTrimWs).reverse.dropWhile jsTrimWs).reverse

/-- `line.startsWith('data: ')`. -/
def isDataLine (cs : List Char) : Bool :=
  ("data: ".data).isPrefixOf cs

/-! ### The carry-buffer line splitter

`chunkText.split('\n')` followed by `lines.pop()`: the complete lines and
the trailing incomplete fragment. -/

def splitNl : List Char → List (List Char) × List Char
  | [] => ([], [])
  | c :: cs =>
    let p := splitNl cs
    if c = '\n' then ([] :: p.1, p.2)
    else
      match p.1 with
      | [] => ([], c :: p.2)
      | l :: ls => ((c :: l) :: ls, p.2)

/-- Keep elements up to and including the first one satisfying `p`. -/
def takeThru (p : α → Bool) : List α → List α
  | [] => []
  | x :: xs => if p x then [x] else x :: takeThru p xs

/-! ### Anthropic-dialect stream events (src/api.js lines 101-264)

The source fuses record extraction and tool orchestration in one loop;
`SEvent` is the record-classification layer of that loop, with `opn`
mirroring `currentToolUse` in its role as parsing state.  Event payloads
carry the raw JSON fields the code reads (`none` models JS `undefined`). -/

inductive SEvent where
  | textDelta (text : Option JVal)
  | toolStart (id name : Option JVal)
  | argDelta (frag : Option JVal)
  | toolEnd
  | turnEnd
deriving Repr, BEq

/-- JS strict equality `v.f === 's'` of a member against a string literal:
true exactly when the member is that string. -/
def fieldIsStr (v : JVal) (f s : String) : Bool :=
  match v.getF f with
  | some (.jstr t) => t == s
  | _ => false

/-- `data.type === 's'`. -/
def typeIs (d : JVal) (s : String) : Bool := fieldIsStr d "type" s

/-- The parsed record of one line, if any: empty-after-trim lines are
skipped, only `data: `-prefixed lines are considered, and records failing
`JSON.parse` are silently dropped. -/
def lineRecord (line : List Char) : Option JVal :=
  if jsTrimList line == [] then none
  else if isDataLine line then
    jsonParse (String.mk (jsTrimList (line.drop 5)))
  else none

/-- A line whose record makes the loop `break` (`message_stop`). -/
def isStopLine (line : List Char) : Bool :=
  match lineRecord line with
  | some d => typeIs d "message_stop"
  | none => false

/-- Events of one line, threading the open-tool-call flag. -/
def claudeLineStep (opn : Bool) (line : List Char) : Bool × List SEvent :=
  match lineRecord line with
  | none => (opn, [])
  | some d =>
    if typeIs d "content_block_start" then
      match d.getF "content_block" with
      | some cb =>
        if cb.truthy && fieldIsStr cb "type" "tool_use" then
          (true, [.toolStart (cb.getF "id") (cb.getF "name")])
        else (opn, [])
      | none => (opn, [])
    else if typeIs d "content_block_delta" then
      match d.getF "delta" with
      | some dl =>
        if dl.truthy && fieldIsStr dl "type" "text_delta" then
          (opn, [.textDelta (dl.getF "text")])
        else if dl.truthy && fieldIsStr dl "type" "input_json_delta" && opn then
          (opn, [.argDelta (dl.getF "partial_json")])
        else (opn, [])
      | none => (opn, [])
    else if typeIs d "content_block_stop" then
      if opn then (false, [.toolEnd]) else (opn, [])
    else if typeIs d "message_stop" then
      (opn, [.turnEnd])
    else (opn, [])

/-- Run the step machine over a line sequence. -/
def runLines (opn : Bool) : List (List Char) → Bool × List SEvent
  | [] => (opn, [])
  | l :: ls =>
    let p := claudeLineStep opn l
    let q := runLines p.1 ls
    (q.1, p.2 ++ q.2)

/-- Complete lines actually processed by the chunk loop: each chunk is
prefixed with the carry and split, and a `message_stop` record breaks out
of the per-chunk line loop only (later chunks are still processed).
Returns the processed lines and the final carry. -/
def chunkLines (carry : List Char) : List (List Char) → List (List Char) × List Char
  | [] => ([], carry)
  | c :: cs =>
    let p := splitNl (carry ++ c)
    let q := chunkLines p.2 cs
    (takeThru isStopLine p.1 ++ q.1, q.2)

/-- Like `chunkLines` but without the `message_stop` break (the Ollama
loop has none). -/
def chunkLinesNB (carry : List Char) : List (List Char) → List (List Char) × List Char
  | [] => ([], carry)
  | c :: cs =>
    let p := splitNl (carry ++ c)
    let q := chunkLinesNB p.2 cs
    (p.1 ++ q.1, q.2)

/-- End-of-stream handling of the residual fragment (src/api.js lines
251-264): only a `data: ` line with a `text_delta` record yields anything. -/
def flushEvents (carry : List Char) : List SEvent :=
  match lineRecord carry with
  | some d =>
    if typeIs d "content_block_delta" then
      match d.getF "delta" with
      | some dl =>
        if dl.truthy && fieldIsStr dl "type" "text_delta" then
          [.textDelta (dl.getF "text")]
        else []
      | none => []
    else []
  | none => []

/-- Full event sequence of the Anthropic-dialect loop over a chunked
stream. -/
def claudeEvents (chunks : List (List Char)) : List SEvent :=
  let p := chunkLines [] chunks
  (runLines false p.1).2 ++ flushEvents p.2

/-! ### Ollama-dialect stream (src/providers/OllamaProvider.js 111-143) -/

/-- Yields of one NDJSON line: nonblank lines parsed as JSON, yielding
`data.message.content` when both are truthy. -/
def ollamaLineYields (line : List Char) : List JVal :=
  if jsTrimList line == [] then []
  else
    match jsonParse (String.mk line) with
    | none => []
    | some d =>
      match d.getF "message" with
      | some m =>
        if m.truthy then
          match m.getF "content" with
          | some ct => if ct.truthy then [ct] else []
          | none => []
        else []
      | none => []

/-- Full yield sequence of the Ollama loop over a chunked stream; the
residual buffer is handled by the same rule as a line. -/
def ollamaYields (chunks : List (List Char)) : List JVal :=
  let p := chunkLinesNB [] chunks
  p.1.flatMap ollamaLineYields ++ ollamaLineYields p.2

/-- Marks the `TurnEnd` stream event. -/
def isTurnEnd : SEvent → Bool
  | .turnEnd => true
  | _ => false

/-- The event sequence up to and including the first `TurnEnd`. -/
def upToTurnEnd (es : List SEvent) : List SEvent := takeThru isTurnEnd es

/-! ### PermissionCache (src/services/PermissionCache.js)

Timestamps are integer milliseconds (the source stores ISO strings and
compares `Date.now() - new Date(ts).getTime()`); the SHA-256 hex digest is
an abstract `hash` parameter, since every claim here is invariant in it.
The `approvedTools` JS object is an insertion-ordered association list
with unique keys. -/

/-- One stored approval record. -/
structure ApprovalRec where
  toolName : String
  timestamp : Int
  summary : String
deriving Repr, BEq

/-- The persisted permission state: the keyed approval map plus the
session `alwaysAsk` flag. -/
structure PermCache where
  approvedTools : List (String × ApprovalRec)
  alwaysAsk : Bool
deriving Repr, BEq

/-- JS object assignment `o[k] = v`: overwrite in place or append. -/
def setKey (k : String) (v : ApprovalRec) :
    List (String × ApprovalRec) → List (String × ApprovalRec)
  | [] => [(k, v)]
  | (k2, v2) :: rest =>
    if k2 == k then (k2, v) :: rest else (k2, v2) :: setKey k v rest

/-- JS `delete o[k]`. -/
def delKey (k : String) : List (String × ApprovalRec) → List (String × ApprovalRec)
  | [] => []
  | (k2, v2) :: rest => if k2 == k then rest else (k2, v2) :: delKey k rest

/-- Key order used by `Object.keys(obj).sort()`: the default JS comparator
compares strings by UTF-16 code units, which on the basic multilingual
plane coincides with this character-wise lexicographic order. -/
def keyLe (p q : String × JVal) : Prop := p.1.data ≤ q.1.data

instance : DecidableRel keyLe := fun p q =>
  inferInstanceAs (Decidable (p.1.data ≤ q.1.data))

instance : IsTotal (String × JVal) keyLe := ⟨fun p q => le_total p.1.data q.1.data⟩

instance : IsTrans (String × JVal) keyLe := ⟨fun _ _ _ => le_trans⟩

/-- Sort object members by key (JSON object keys are distinct, so any
correct sort produces this unique key-ordered arrangement). -/
def sortByKey (l : List (String × JVal)) : List (String × JVal) :=
  List.insertionSort keyLe l

mutual

/-- `PermissionCache.sortObject`: recursively canonicalize by sorting
object keys (`Object.keys(obj).sort()`, rebuilding with the values
recursively sorted); arrays keep their order, scalars pass through. -/
def sortObject : JVal → JVal
  | .jnull => .jnull
  | .jbool b => .jbool b
  | .jnum lx => .jnum lx
  | .jstr s => .jstr s
  | .jarr es => .jarr (sortObjectArr es)
  | .jobj ms => .jobj (sortByKey (sortObjectMembers ms))

def sortObjectArr : List JVal → List JVal
  | [] => []
  | v :: vs => sortObject v :: sortObjectArr vs

def sortObjectMembers : List (String × JVal) → List (String × JVal)
  | [] => []
  | (k, v) :: ms => (k, sortObject v) :: sortObjectMembers ms

end

/-- `PermissionCache.generateKey`: special-cased for `file_write` (keyed by
destination path) and `shell_execute` (keyed by a truncated hash of the
command); otherwise the tool name plus a truncated hash of the
canonicalized input.  `hash` abstracts the SHA-256 hex digest. -/
def generateKey (hash : String → String) (toolName : String) (input : JVal) :
    String :=
  let sortedInput := sortObject input
  let inputString := jsonStringify sortedInput
  if toolName == "file_write" && ((input.getF "path").elim false JVal.truthy) then
    toolName ++ ":" ++ jsStr (input.getF "path")
  else if toolName == "shell_execute" &&
      ((input.getF "command").elim false JVal.truthy) then
    toolName ++ ":cmd:" ++ (hash (jsStr (input.getF "command"))).take 16
  else
    toolName ++ ":" ++ (hash inputString).take 16

/-- `PermissionCache.createSummary`. -/
def createSummary (toolName : String) (input : JVal) : String :=
  if toolName == "shell_execute" then
    let cmd := match input.getF "command" with
      | some v => if v.truthy then v.coerceStr else ""
      | none => ""
    let parts := cmd.splitOn " "
    parts.headI ++ (if parts.length > 1 then "..." else "")
  else if toolName == "file_write" then
    match input.getF "path" with
    | some v => if v.truthy then v.coerceStr else "unknown file"
    | none => "unknown file"
  else "generic tool call"

/-- The 24-hour TTL, in milliseconds. -/
def ttlMs : Int := 24 * 60 * 60 * 1000

/-- `PermissionCache.isApproved` at time `now`: the returned boolean plus
the resulting state (an expired record is deleted on the spot). -/
def isApproved (hash : String → String) (now : Int) (c : PermCache)
    (toolName : String) (input : JVal) : Bool × PermCache :=
  if c.alwaysAsk then (false, c)
  else
    match c.approvedTools.lookup (generateKey hash toolName input) with
    | none => (false, c)
    | some r =>
      if now - r.timestamp > ttlMs then
        (false, { c with approvedTools :=
            (delKey (generateKey hash toolName input) c.approvedTools) })
      else (true, c)

/-- `PermissionCache.addApproval` at time `now`. -/
def addApproval (hash : String → String) (now : Int) (c : PermCache)
    (toolName : String) (input : JVal) (rememberChoice : Bool) : PermCache :=
  if !rememberChoice then c
  else
    let key := generateKey hash toolName input
    let r := ApprovalRec.mk toolName now (createSummary toolName input)
    { c with approvedTools := setKey key r c.approvedTools }

/-- `PermissionCache.setAlwaysAsk`. -/
def setAlwaysAsk (c : PermCache) (enabled : Bool) : PermCache :=
  { c with alwaysAsk := enabled }

/-- `PermissionCache.clearCache`. -/
def clearCache (c : PermCache) : PermCache :=
  { c with approvedTools := [] }

/-- Every key of the first list occurs in the second. -/
def keysIncluded (as bs : List (String × JVal)) : Bool :=
  as.all (fun p => (bs.lookup p.1).isSome)

mutual

/-- Key-reordering equivalence of JSON values: identical except that the
members of corresponding objects may be listed in a different order
(values compared recursively).  This is the claim-side reading of
"equal up to recursive reordering of object keys". -/
def permEqB : JVal → JVal → Bool
  | .jnull, .jnull => true
  | .jbool a, .jbool b => a == b
  | .jnum a, .jnum b => a == b
  | .jstr a, .jstr b => a == b
  | .jarr as, .jarr bs => permEqArr as bs
  | .jobj as, .jobj bs => permEqMembers as bs && keysIncluded bs as
  | _, _ => false

def permEqArr : List JVal → List JVal → Bool
  | [], [] => true
  | a :: as, b :: bs => permEqB a b && permEqArr as bs
  | _, _ => false

/-- Every member of the first list has a same-key member in the second
with an equivalent value. -/
def permEqMembers : List (String × JVal) → List (String × JVal) → Bool
  | [], _ => true
  | (k, v) :: rest, bs =>
    (match bs.lookup k with
      | some w => permEqB v w
      | none => false) && permEqMembers rest bs

end

mutual

/-- All objects reachable in the value have distinct keys (always true of
`JSON.parse` output as seen through JS member access, and of every JS
object literal). -/
def nodupKeysB : JVal → Bool
  | .jnull => true
  | .jbool _ => true
  | .jnum _ => true
  | .jstr _ => true
  | .jarr es => nodupKeysArr es
  | .jobj ms => decide ((ms.map Prod.fst).Nodup) && nodupKeysMembers ms

def nodupKeysArr : List JVal → Bool
  | [] => true
  | v :: vs => nodupKeysB v && nodupKeysArr vs

def nodupKeysMembers : List (String × JVal) → Bool
  | [] => true
  | (_, v) :: ms => nodupKeysB v && nodupKeysMembers ms

end

/-! ### MCPManager and CommandService.mcpReload (claim C5)

Embedded from the extended `MCPManager` (connection status tracking,
`shutdown`, result-returning `initialize`) and `CommandService.mcpReload`.
Tool registries, status records and display strings do not affect which
hosts get disconnected or connected, so the state keeps the connected
server names (JS `Map` insertion order) and the disabled set; connect
attempts of child-process hosts go through an `outcome` oracle standing
for `MCPClient.connect`. -/

/-- One host entry of the MCP configuration (`enabled` and `command` are
the fields `initialize`/`connectServer` branch on). -/
structure HostCfg where
  enabled : Option Bool
  command : Option String
deriving Repr, BEq

/-- JS truthiness of `config.command`. -/
def HostCfg.hasCommand (c : HostCfg) : Bool :=
  match c.command with
  | some s => !(s == "")
  | none => false

/-- Manager state: connected server names in insertion order, plus the
manually disabled set. -/
structure MgrState where
  servers : List String
  disabledServers : List String
  initialized : Bool
deriving Repr, BEq

/-- Observable transport operations of a reload. -/
inductive MgrOp where
  | disconnect (name : String)
  | connectOk (name : String)
  | connectFail (name : String)
deriving Repr, BEq

/-- `initialize`'s returned summary. -/
structure InitResult where
  success : Nat
  failed : Nat
  errors : List String
deriving Repr, BEq

/-- `MCPManager.shutdown`: best-effort disconnect of every connected
server (errors only emit an event), then clear. -/
def shutdownMgr (st : MgrState) : MgrState × List MgrOp :=
  ({ st with servers := [], initialized := false },
    st.servers.map MgrOp.disconnect)

/-- `MCPManager.connectServer`: no-op when already connected; `builtin`
connects in-process (its `initialize` cannot throw); a `command` entry
spawns a child-process client whose connect may fail (`outcome`); other
entries are skipped.  The returned flag records whether the call threw. -/
def connectServerStep (outcome : String → Bool) (st : MgrState)
    (name : String) (cfg : HostCfg) : MgrState × List MgrOp × Bool :=
  if st.servers.contains name then (st, [], false)
  else if name == "builtin" && !(cfg.enabled == some false) then
    ({ st with servers := st.servers ++ [name] }, [MgrOp.connectOk name], false)
  else if cfg.hasCommand then
    if outcome name then
      ({ st with servers := st.servers ++ [name] }, [MgrOp.connectOk name], false)
    else (st, [MgrOp.connectFail name], true)
  else (st, [], false)

/-- The per-entry loop of `MCPManager.initialize`: disabled entries are
skipped; a throwing connect is caught, counted, and recorded, and the
loop continues with the remaining entries. -/
def initializeLoop (outcome : String → Bool) (st : MgrState) :
    List (String × HostCfg) → MgrState × List MgrOp × InitResult
  | [] => ({ st with initialized := true }, [], InitResult.mk 0 0 [])
  | (name, cfg) :: rest =>
    if st.disabledServers.contains name || cfg.enabled == some false then
      initializeLoop outcome st rest
    else
      let p := connectServerStep outcome st name cfg
      let q := initializeLoop outcome p.1 rest
      if p.2.2 then
        (q.1, p.2.1 ++ q.2.1,
          InitResult.mk q.2.2.success (q.2.2.failed + 1) (name :: q.2.2.errors))
      else
        (q.1, p.2.1 ++ q.2.1,
          InitResult.mk (q.2.2.success + 1) q.2.2.failed q.2.2.errors)

/-- `MCPManager.initialize`: early-out when already initialized. -/
def initializeMgr (outcome : String → Bool) (st : MgrState)
    (cfg : List (String × HostCfg)) : MgrState × List MgrOp × InitResult :=
  if st.initialized then (st, [], InitResult.mk 0 0 [])
  else initializeLoop outcome st cfg

/-- What `CommandService.mcpReload` reports and does. -/
structure ReloadOutcome where
  trace : List MgrOp
  added : List String
  removed : List String
  existing : List String
  result : InitResult
deriving Repr, BEq

/-- `CommandService.mcpReload`: compute the old/new diff for display, then
`shutdown()` the manager entirely and `initialize()` from the new
configuration; per-host connect failures are reported in the result, not
raised. -/
def mcpReload (outcome : String → Bool) (st : MgrState)
    (newConfig : List (String × HostCfg)) : MgrState × ReloadOutcome :=
  let oldServers := st.servers
  let newNames := newConfig.map Prod.fst
  let added := newNames.filter (fun n => !oldServers.contains n)
  let removed := oldServers.filter (fun n => !newNames.contains n)
  let existing := newNames.filter (fun n => oldServers.contains n)
  let p := shutdownMgr st
  let q := initializeMgr outcome p.1 newConfig
  (q.1, ReloadOutcome.mk (p.2 ++ q.2.1) added removed existing q.2.2)

/-! ### Child-process environment expansion (claim C10)

`MCPClient.connectStdio` builds the child environment as
`{...process.env}` overridden by the configured entries, each run through
`value.replace(/\$\x7b(\w+)\x7d/g, (match, envVar) => process.env[envVar] || match)`. -/

/-- JS `\w`: ASCII letters, digits and underscore. -/
def isWordChar (c : Char) : Bool :=
  ('a' ≤ c && c ≤ 'z') || ('A' ≤ c && c ≤ 'Z') || ('0' ≤ c && c ≤ '9') || c == '_'

/-- The replacement for one matched `$\x7bNAME\x7d`: the parent value when
set and nonempty (`process.env[envVar] || match` treats the empty string as
unset), otherwise the matched text itself. -/
def expandPlaceholder (parent : String → Option String) (name : String) :
    List Char :=
  match parent name with
  | some v => if v == "" then '$' :: '\x7b' :: (name.data ++ ['\x7d']) else v.data
  | none => '$' :: '\x7b' :: (name.data ++ ['\x7d'])

/-- Left-to-right scan of the global regex replace: at each position try to
match `$\x7b\w+\x7d`; on a match, emit the replacement (not rescanned, as
callback replacements are literal) and continue after it; otherwise emit
one character and move on. -/
def expandScan (parent : String → Option String) (cs0 : List Char) : List Char :=
  match cs0 with
  | [] => []
  | c :: cs =>
    if c = '$' then
      match hcs : cs with
      | '\x7b' :: rest =>
        if (rest.takeWhile isWordChar).isEmpty then c :: expandScan parent cs
        else
          match hr : rest.drop (rest.takeWhile isWordChar).length with
          | '\x7d' :: tail =>
            expandPlaceholder parent (String.mk (rest.takeWhile isWordChar)) ++
              expandScan parent tail
          | _ => c :: expandScan parent cs
      | _ => c :: expandScan parent cs
    else c :: expandScan parent cs
termination_by cs0.length
decreasing_by
  · simp [hcs]
  · have h1 : (List.drop (rest.takeWhile isWordChar).length rest).length
        = rest.length - (rest.takeWhile isWordChar).length := List.length_drop _ _
    rw [hr] at h1
    simp only [List.length_cons] at h1
    simp only [hcs, List.length_cons]
    omega
  · simp [hcs]
  · simp [hcs]
  · simp

/-- `value.replace(/\$\x7b(\w+)\x7d/g, ...)` on a whole string. -/
def expandValue (parent : String → Option String) (v : String) : String :=
  String.mk (expandScan parent v.data)

/-- The child environment: the parent environment spread first, then each
configured entry assigned with its value expanded. -/
def buildEnv (parent : String → Option String)
    (cfgEnv : List (String × String)) : String → Option String :=
  fun k =>
    match cfgEnv.lookup k with
    | some v => some (expandValue parent v)
    | none => parent k

/-! ### BuiltInServer (src/mcp/BuiltInServer.js, claim C6)

The handlers run over an abstract `HostWorld` standing for the Node file
system, process and HTTP APIs; each handler mirrors its source control
flow (argument access, wrapping of failures, the shell handler's internal
catch that returns instead of throwing). -/

/-- One directory entry, as `fs.readdir(..., \x7b withFileTypes: true \x7d)`
exposes it. -/
structure FsEntry where
  entryName : String
  isDir : Bool
deriving Repr, BEq

/-- Successful `exec` output. -/
structure ExecOk where
  stdout : String
  stderr : String
deriving Repr, BEq

/-- Failed `exec` error object (fields the handler reads; `none` models an
absent field). -/
structure ExecErr where
  stdout : Option String
  stderr : Option String
  message : String
  code : Option Int
deriving Repr, BEq

inductive ExecOutcome where
  | ok (r : ExecOk)
  | err (e : ExecErr)
deriving Repr, BEq

/-- An HTTP response as the handler reads it. -/
structure HttpResp where
  status : Int
  statusText : String
  headers : JVal
  respData : JVal
deriving Repr, BEq

/-- `axios(config)` outcome: success, failure with a response attached, or
failure without one. -/
inductive HttpOutcome where
  | ok (r : HttpResp)
  | errResp (r : HttpResp)
  | errNoResp (message : String)
deriving Repr, BEq

/-- The world the built-in handlers run against. -/
structure HostWorld where
  resolve : String → String
  joinPath : String → String → String
  readFile : String → Except String String
  writeFile : String → String → Except String Unit
  readdir : String → Except String (List FsEntry)
  exec : String → Option String → ExecOutcome
  http : Option JVal → JVal → JVal → Option JVal → HttpOutcome

/-- The structured error object `executeTool` returns when a handler
throws. -/
def jErrObj (e : String) : JVal :=
  .jobj [("error", .jstr e), ("isError", .jbool true)]

/-- UTF-8 byte length (`Buffer.byteLength(content, 'utf-8')`). -/
def utf8Len (s : String) : Nat :=
  s.data.foldl (fun acc c => acc + c.utf8Size) 0

/-- `BuiltInServer.fileRead`: resolve, read, wrap read failures; a
non-string `path` makes `path.resolve` throw a `TypeError`. -/
def fileRead (w : HostWorld) (args : JVal) : Except String JVal :=
  match args.getF "path" with
  | some (.jstr p) =>
    let fp := w.resolve p
    match w.readFile fp with
    | .ok content => .ok (.jobj [("content", .jstr content), ("path", .jstr fp)])
    | .error e => .error ("Failed to read file: " ++ e)
  | _ => .error "The \"path\" argument must be of type string"

/-- `BuiltInServer.fileWrite`. -/
def fileWrite (w : HostWorld) (args : JVal) : Except String JVal :=
  match args.getF "path" with
  | some (.jstr p) =>
    let fp := w.resolve p
    match args.getF "content" with
    | some (.jstr ct) =>
      match w.writeFile fp ct with
      | .ok _ => .ok (.jobj [("success", .jbool true), ("path", .jstr fp),
          ("bytesWritten", .jnum (toString (utf8Len ct)))])
      | .error e => .error ("Failed to write file: " ++ e)
    | _ => .error "The \"data\" argument must be of type string"
  | _ => .error "The \"path\" argument must be of type string"

/-- `BuiltInServer.fileList`. -/
def fileList (w : HostWorld) (args : JVal) : Except String JVal :=
  match args.getF "path" with
  | some (.jstr p) =>
    let dp := w.resolve p
    match w.readdir dp with
    | .ok entries =>
      let files := entries.map (fun e => JVal.jobj
        [("name", .jstr e.entryName),
          ("type", .jstr (if e.isDir then "directory" else "file")),
          ("path", .jstr (w.joinPath dp e.entryName))])
      .ok (.jobj [("files", .jarr files),
        ("count", .jnum (toString files.length)), ("path", .jstr dp)])
    | .error e => .error ("Failed to list directory: " ++ e)
  | _ => .error "The \"path\" argument must be of type string"

/-- The exec step shared by `shellExecute`'s `cwd` branches. -/
def shellRun (w : HostWorld) (args : JVal) (cwd : Option String) :
    Except String JVal :=
  match args.getF "command" with
  | some (.jstr cmd) =>
    match w.exec cmd cwd with
    | .ok r => .ok (.jobj [("stdout", .jstr r.stdout), ("stderr", .jstr r.stderr),
        ("command", .jstr cmd), ("exitCode", .jnum "0")])
    | .err e => .ok (.jobj
        [("stdout", .jstr (e.stdout.getD "")),
          ("stderr", .jstr (match e.stderr with
            | some s => if s == "" then e.message else s
            | none => e.message)),
          ("command", .jstr cmd),
          ("exitCode", .jnum (toString (match e.code with
            | some n => if n = 0 then 1 else n
            | none => 1))),
          ("error", .jstr e.message)])
  | _ => .error "The \"command\" argument must be of type string"

/-- `BuiltInServer.shellExecute`: note the internal catch — a failing
command RETURNS a structured result (with the error message and exit
code), it does not throw. -/
def shellExecute (w : HostWorld) (args : JVal) : Except String JVal :=
  match args.getF "cwd" with
  | some cv =>
    if cv.truthy then
      match cv with
      | .jstr cs => shellRun w args (some (w.resolve cs))
      | _ => .error "The \"path\" argument must be of type string"
    else shellRun w args none
  | none => shellRun w args none

/-- `BuiltInServer.webRequest`: a failure carrying a response is RETURNED
(with `error: true`); a failure without one throws. -/
def webRequest (w : HostWorld) (args : JVal) : Except String JVal :=
  let method := match args.getF "method" with
    | some v => if v.truthy then v else .jstr "GET"
    | none => .jstr "GET"
  let headers := match args.getF "headers" with
    | some v => if v.truthy then v else .jobj []
    | none => .jobj []
  match w.http (args.getF "url") method headers (args.getF "data") with
  | .ok r => .ok (.jobj [("status", .jnum (toString r.status)),
      ("statusText", .jstr r.statusText), ("headers", r.headers),
      ("data", r.respData)])
  | .errResp r => .ok (.jobj [("status", .jnum (toString r.status)),
      ("statusText", .jstr r.statusText), ("headers", r.headers),
      ("data", r.respData), ("error", .jbool true)])
  | .errNoResp m => .error ("Request failed: " ++ m)

/-- Declared input-schema data, as written in `initialize`. -/
structure PropSpec where
  propName : String
  ptype : String
  enumVals : Option (List String)
deriving Repr, BEq

structure ToolSchema where
  props : List PropSpec
  required : List String
deriving Repr, BEq

def fileReadSchema : ToolSchema :=
  ToolSchema.mk [PropSpec.mk "path" "string" none] ["path"]

def fileWriteSchema : ToolSchema :=
  ToolSchema.mk [PropSpec.mk "path" "string" none,
    PropSpec.mk "content" "string" none] ["path", "content"]

def fileListSchema : ToolSchema :=
  ToolSchema.mk [PropSpec.mk "path" "string" none] ["path"]

def shellExecuteSchema : ToolSchema :=
  ToolSchema.mk [PropSpec.mk "command" "string" none,
    PropSpec.mk "cwd" "string" none] ["command"]

def webRequestSchema : ToolSchema :=
  ToolSchema.mk [PropSpec.mk "url" "string" none,
    PropSpec.mk "method" "string" (some ["GET", "POST", "PUT", "DELETE"]),
    PropSpec.mk "headers" "object" none,
    PropSpec.mk "data" "object" none] ["url"]

/-- The default tool set (`config.tools` absent); note `file_list` is NOT
in the default. -/
def defaultEnabledTools : List String :=
  ["file_read", "file_write", "shell_execute", "web_request"]

/-- Registration order and schemas of `BuiltInServer.initialize`. -/
def builtinTools (enabledTools : List String) : List (String × ToolSchema) :=
  (if enabledTools.contains "file_read" then [("file_read", fileReadSchema)] else []) ++
  (if enabledTools.contains "file_write" then [("file_write", fileWriteSchema)] else []) ++
  (if enabledTools.contains "file_list" then [("file_list", fileListSchema)] else []) ++
  (if enabledTools.contains "shell_execute" then [("shell_execute", shellExecuteSchema)] else []) ++
  (if enabledTools.contains "web_request" then [("web_request", webRequestSchema)] else [])

/-- Dispatch to the registered handler. -/
def runHandler (w : HostWorld) (name : String) (args : JVal) :
    Except String JVal :=
  if name == "file_read" then fileRead w args
  else if name == "file_write" then fileWrite w args
  else if name == "file_list" then fileList w args
  else if name == "shell_execute" then shellExecute w args
  else if name == "web_request" then webRequest w args
  else .error ("Tool " ++ name ++ " not found")

/-- `BuiltInServer.executeTool`: unknown tools throw; a registered
handler runs inside try/catch, its thrown errors becoming a structured
`\x7b error, isError \x7d` result. -/
def executeTool (w : HostWorld) (enabledTools : List String) (name : String)
    (args : JVal) : Except String JVal :=
  if ((builtinTools enabledTools).lookup name).isSome then
    match runHandler w name args with
    | .ok r => .ok r
    | .error e => .ok (jErrObj e)
  else .error ("Tool " ++ name ++ " not found")

/-- Modelled from the spec: the claimed pre-execution validation of a tool
input against the tool's declared schema ("each validated against its
declared schema before execution").  `BuiltInServer` contains no such
check; this definition exists to state claim C6 against the code. -/
def specSchemaValid (s : ToolSchema) (input : JVal) : Bool :=
  match input with
  | .jobj ms =>
    s.required.all (fun r => (ms.lookup r).isSome) &&
    s.props.all (fun p =>
      match ms.lookup p.propName with
      | none => true
      | some v =>
        (if p.ptype == "string" then (match v with | .jstr _ => true | _ => false)
          else if p.ptype == "object" then (match v with | .jobj _ => true | _ => false)
          else true) &&
        (match p.enumVals, v with
          | some es, .jstr sv => es.contains sv
          | some _, _ => false
          | none, _ => true))
  | _ => false

/-- A world where every HTTP request succeeds with status 200 (used by the
C6 counterexample). -/
def httpOkWorld : HostWorld :=
  HostWorld.mk (fun s => s) (fun a b => a ++ "/" ++ b)
    (fun _ => .error "ENOENT") (fun _ _ => .error "EACCES")
    (fun _ => .error "ENOENT") (fun _ _ => ExecOutcome.err
      (ExecErr.mk none none "spawn failure" none))
    (fun _ _ _ _ => HttpOutcome.ok (HttpResp.mk 200 "OK" (.jobj []) .jnull))

/-! ### The per-round tool-call orchestration of getClaudeResponse
(src/api.js lines 95-316, claims C2-C4)

One round = one pass of the `while` loop: drive the chunk/line loop over
the stream, finalize tool calls at `content_block_stop`, flush the
residual line, then assemble the conversation messages.  Display strings
are abstracted to tagged fragments; the approval prompt is a list of
queued user answers; `execute` stands for `mcpManager.executeTool`
(`.error` = thrown).  Tool names reach the cache and the manager via
the JS string coercion of the raw `name` field. -/

structure ApprovalResp where
  approved : Bool
  remember : Bool
deriving Repr, BEq

/-- Display yields of the round, with formatting abstracted. -/
inductive RFrag where
  | text (t : Option JVal)
  | cancelled
  | permSaved
  | cachedPerm
  | toolDesc
  | resultText
  | errorText
  | roundSep
deriving Repr, BEq

/-- Side effects on collaborators. -/
inductive REffect where
  | prompt
  | execute (name : String) (input : JVal)
deriving Repr, BEq

/-- `currentToolUse`: raw `id`/`name` fields plus the accumulated
argument text. -/
structure Pending where
  pid : Option JVal
  pname : Option JVal
  pinput : String
deriving Repr, BEq

/-- One entry of `toolUseBlocks`. -/
structure ToolBlock where
  tid : Option JVal
  tname : Option JVal
  tinput : JVal
  tresult : JVal
deriving Repr, BEq

structure RoundCtx where
  hash : String → String
  now : Int
  hasManager : Bool
  hasCli : Bool
  execute : String → JVal → Except String JVal

structure RoundSt where
  toolUseBlocks : List ToolBlock
  currentToolUse : Option Pending
  assistantResponse : String
  usedTools : Bool
  perm : PermCache
  approvals : List ApprovalResp
deriving BEq

/-- The execution step shared by the permission branches: dispatch to the
manager; a thrown execution error is caught at the inner handler (line
221) and recorded as an error-flagged block (the argument text re-parses
fine here). -/
def execPhase (ctx : RoundCtx) (st : RoundSt) (p : Pending) (toolInput : JVal)
    (preFrags : List RFrag) (preEffs : List REffect) :
    RoundSt × List RFrag × List REffect × Bool :=
  match ctx.execute (jsStr p.pname) toolInput with
  | .ok result =>
    ({ st with
        toolUseBlocks := (st.toolUseBlocks ++
          [ToolBlock.mk p.pid p.pname toolInput result]),
        currentToolUse := none },
      preFrags ++ [RFrag.toolDesc, RFrag.resultText],
      preEffs ++ [REffect.execute (jsStr p.pname) toolInput], false)
  | .error msg =>
    ({ st with
        toolUseBlocks := (st.toolUseBlocks ++
          [ToolBlock.mk p.pid p.pname toolInput (jErrObj msg)]),
        currentToolUse := none },
      preFrags ++ [RFrag.toolDesc, RFrag.errorText],
      preEffs ++ [REffect.execute (jsStr p.pname) toolInput], false)

/-- `content_block_stop` with an open call (api.js lines 140-239). -/
def handleToolStop (ctx : RoundCtx) (st : RoundSt) (p : Pending) :
    RoundSt × List RFrag × List REffect × Bool :=
  match jsonParse p.pinput with
  | none =>
    -- JSON.parse throws; the catch at line 221 yields an error fragment,
    -- then its own push re-parses the invalid text (line 234) and throws
    -- again; the per-line catch at line 243 swallows that, so NO block is
    -- recorded and line 238 (`currentToolUse = null`) never runs.
    (st, [RFrag.errorText], [], false)
  | some toolInput =>
    if ctx.hasManager then
      if ctx.hasCli then
        let pre := isApproved ctx.hash ctx.now st.perm (jsStr p.pname) toolInput
        if pre.1 then
          execPhase ctx { st with perm := pre.2 } p toolInput [RFrag.cachedPerm] []
        else
          let resp := st.approvals.headD (ApprovalResp.mk false false)
          let st1 := { st with perm := pre.2, approvals := st.approvals.tail }
          if !resp.approved then
            ({ st1 with
                toolUseBlocks := (st1.toolUseBlocks ++
                  [ToolBlock.mk p.pid p.pname toolInput
                    (jErrObj "User cancelled the operation")]),
                currentToolUse := none },
              [RFrag.cancelled], [REffect.prompt], false)
          else if resp.remember then
            execPhase ctx
              { st1 with perm := (addApproval ctx.hash ctx.now st1.perm
                  (jsStr p.pname) toolInput true) }
              p toolInput [RFrag.permSaved] [REffect.prompt]
          else
            execPhase ctx st1 p toolInput [] [REffect.prompt]
      else execPhase ctx st p toolInput [] []
    else ({ st with currentToolUse := none }, [], [], false)

/-- One parsed record through the fused loop body (api.js lines 123-242). -/
def handleData (ctx : RoundCtx) (st : RoundSt) (d : JVal) :
    RoundSt × List RFrag × List REffect × Bool :=
  if typeIs d "content_block_start" then
    match d.getF "content_block" with
    | some cb =>
      if cb.truthy && fieldIsStr cb "type" "tool_use" then
        ({ st with
            currentToolUse := (some (Pending.mk (cb.getF "id")
              (cb.getF "name") "")),
            usedTools := true }, [], [], false)
      else (st, [], [], false)
    | none => (st, [], [], false)
  else if typeIs d "content_block_delta" then
    match d.getF "delta" with
    | some dl =>
      if dl.truthy && fieldIsStr dl "type" "text_delta" then
        ({ st with assistantResponse := (st.assistantResponse ++
              jsStr (dl.getF "text")) },
          [RFrag.text (dl.getF "text")], [], false)
      else if dl.truthy && fieldIsStr dl "type" "input_json_delta"
          && st.currentToolUse.isSome then
        (match st.currentToolUse with
          | some p => { st with currentToolUse := (some { p with
              pinput := (p.pinput ++ jsStr (dl.getF "partial_json")) }) }
          | none => st, [], [], false)
      else (st, [], [], false)
    | none => (st, [], [], false)
  else if typeIs d "content_block_stop" then
    match st.currentToolUse with
    | some p => handleToolStop ctx st p
    | none => (st, [], [], false)
  else if typeIs d "message_stop" then
    (st, [], [], true)
  else (st, [], [], false)

/-- One line: skipped unless it carries a parsed `data: ` record.  The
`message_stop` break is applied by the chunk layer (`chunkLines`). -/
def stepRoundLine (ctx : RoundCtx) (st : RoundSt) (line : List Char) :
    RoundSt × List RFrag × List REffect :=
  match lineRecord line with
  | none => (st, [], [])
  | some d =>
    let r := handleData ctx st d
    (r.1, r.2.1, r.2.2.1)

def runRoundLines (ctx : RoundCtx) (st : RoundSt) :
    List (List Char) → RoundSt × List RFrag × List REffect
  | [] => (st, [], [])
  | l :: ls =>
    let p := stepRoundLine ctx st l
    let q := runRoundLines ctx p.1 ls
    (q.1, p.2.1 ++ q.2.1, p.2.2 ++ q.2.2)

def jsTrimStr (s : String) : String := String.mk (jsTrimList s.data)

/-- End-of-stream residual handling (api.js lines 251-264): only a
`text_delta` record extends the assistant text. -/
def flushRound (st : RoundSt) (carry : List Char) : RoundSt × List RFrag :=
  match lineRecord carry with
  | some d =>
    if typeIs d "content_block_delta" then
      match d.getF "delta" with
      | some dl =>
        if dl.truthy && fieldIsStr dl "type" "text_delta" then
          ({ st with assistantResponse := (st.assistantResponse ++
              jsStr (dl.getF "text")) },
            [RFrag.text (dl.getF "text")])
        else (st, [])
      | none => (st, [])
    else (st, [])
  | none => (st, [])

/-- A content block of a conversation message. -/
inductive MBlock where
  | textB (t : String)
  | toolUseB (id : Option JVal) (name : Option JVal) (input : JVal)
  | toolResultB (tuid : Option JVal) (content : JVal)
deriving Repr, BEq

structure Msg where
  role : String
  content : List MBlock
deriving Repr, BEq

/-- The `content` value of a `tool_result` block (api.js lines 296-298). -/
def resultForApi (r : JVal) : JVal :=
  match r with
  | .jstr s => .jstr s
  | _ =>
    match r.getF "text" with
    | some t => if t.truthy then t else .jstr (jsonStringifyP 0 r)
    | none => .jstr (jsonStringifyP 0 r)

/-- Post-stream assembly (api.js lines 267-316): with tool calls this
round, ONE assistant turn (text block if the trimmed text is nonempty,
then every tool-use block in order) followed by ONE USER TURN PER CALL,
each holding a single tool-result block; otherwise the round completes
the conversation. -/
def postStream (st : RoundSt) : List Msg × Bool × List RFrag :=
  if st.usedTools && !st.toolUseBlocks.isEmpty then
    (Msg.mk "assistant"
        ((if !(jsTrimStr st.assistantResponse == "") then
            [MBlock.textB st.assistantResponse] else []) ++
          st.toolUseBlocks.map (fun b => MBlock.toolUseB b.tid b.tname b.tinput)) ::
      st.toolUseBlocks.map (fun b =>
        Msg.mk "user" [MBlock.toolResultB b.tid (resultForApi b.tresult)]),
      false, [RFrag.roundSep])
  else ([], true, [])

/-- One full round over a chunked stream: final machine state, display
fragments, collaborator effects, appended messages, and whether the
conversation is complete. -/
def runRound (ctx : RoundCtx) (st0 : RoundSt) (chunks : List (List Char)) :
    RoundSt × List RFrag × List REffect × List Msg × Bool :=
  let p := chunkLines [] chunks
  let r := runRoundLines ctx st0 p.1
  let f := flushRound r.1 p.2
  let pm := postStream f.1
  (f.1, r.2.1 ++ f.2 ++ pm.2.2, r.2.2, pm.1, pm.2.1)

/-- A fresh round state over a given permission cache and queued prompt
answers. -/
def mkRoundSt (perm : PermCache) (approvals : List ApprovalResp) : RoundSt :=
  RoundSt.mk [] none "" false perm approvals

/-- Round context with tools available and no interactive CLI (the
`cliInterface` argument is null, so the permission gate is skipped), whose
manager returns `"ok"` for every execution. -/
def roundCtxNoCli : RoundCtx :=
  RoundCtx.mk (fun s => s) 0 true false (fun _ _ => Except.ok (JVal.jstr "ok"))

/-- `content_block_start` line opening tool call `t1` (`file_read`). -/
def startLineT1 : String :=
  "data: \x7b\"type\":\"content_block_start\",\"content_block\":\x7b\"type\":\"tool_use\",\"id\":\"t1\",\"name\":\"file_read\"\x7d\x7d\n"

/-- `content_block_start` line opening tool call `t2` (`file_list`). -/
def startLineT2 : String :=
  "data: \x7b\"type\":\"content_block_start\",\"content_block\":\x7b\"type\":\"tool_use\",\"id\":\"t2\",\"name\":\"file_list\"\x7d\x7d\n"

/-- Argument delta carrying the complete JSON `\x7b"path":"/a"\x7d`. -/
def argLineA : String :=
  "data: \x7b\"type\":\"content_block_delta\",\"delta\":\x7b\"type\":\"input_json_delta\",\"partial_json\":\"\x7b\\\"path\\\":\\\"/a\\\"\x7d\"\x7d\x7d\n"

/-- Argument delta carrying the complete JSON `\x7b"path":"/b"\x7d`. -/
def argLineB : String :=
  "data: \x7b\"type\":\"content_block_delta\",\"delta\":\x7b\"type\":\"input_json_delta\",\"partial_json\":\"\x7b\\\"path\\\":\\\"/b\\\"\x7d\"\x7d\x7d\n"

/-- Argument delta whose accumulated text (`\x7binvalid`) is not valid
JSON. -/
def argLineBad : String :=
  "data: \x7b\"type\":\"content_block_delta\",\"delta\":\x7b\"type\":\"input_json_delta\",\"partial_json\":\"\x7binvalid\"\x7d\x7d\n"

/-- `content_block_stop` line. -/
def stopLine : String := "data: \x7b\"type\":\"content_block_stop\"\x7d\n"

/-- `message_stop` line. -/
def msgStopLine : String := "data: \x7b\"type\":\"message_stop\"\x7d\n"

/-- A round with two complete tool calls (claim C2). -/
def twoCallStream : String :=
  startLineT1 ++ argLineA ++ stopLine ++ startLineT2 ++ argLineB ++ stopLine ++
    msgStopLine

/-- A round whose only tool call carries invalid argument JSON (claim C3). -/
def invalidJsonStream : String :=
  startLineT1 ++ argLineBad ++ stopLine ++ msgStopLine

/-- A round whose tool call never receives an explicit end marker before
`message_stop` (claim C4). -/
def unterminatedCallStream : String :=
  startLineT1 ++ argLineA ++ msgStopLine

/-- A stream record chunk ending the turn (used by the C1 counterexample). -/
def stopLineChunk : List Char := "data: \x7b\"type\":\"message_stop\"\x7d\n".data

/-- A text-delta record chunk (used by the C1 counterexample). -/
def textLineChunk : List Char :=
  "data: \x7b\"type\":\"content_block_delta\",\"delta\":\x7b\"type\":\"text_delta\",\"text\":\"X\"\x7d\x7d\n".data

/-! ### Chunk-boundary lemmas for the carry-buffer splitter -/

theorem splitNl_append (a b : List Char) :
    splitNl (a ++ b) =
      ((splitNl a).1 ++ (splitNl ((splitNl a).2 ++ b)).1,
        (splitNl ((splitNl a).2 ++ b)).2) := by
  induction a with
  | nil => simp [splitNl]
  | cons c a ih =>
    by_cases hc : c = '\n'
    · subst hc
      simp [splitNl, ih]
    · cases h : (splitNl a).1 with
      | nil =>
        simp only [List.cons_append, splitNl, if_neg hc, List.append_eq, ih, h,
          List.nil_append]
      | cons l ls =>
        simp only [List.cons_append, splitNl, if_neg hc, List.append_eq, ih, h,
          List.cons_append]

/-- The trailing fragment returned by the splitter never contains a
newline. -/
theorem splitNl_snd_no_nl (cs : List Char) : '\n' ∉ (splitNl cs).2 := by
  induction cs with
  | nil => simp [splitNl]
  | cons c cs ih =>
    by_cases hc : c = '\n'
    · subst hc; simpa [splitNl] using ih
    · cases h : (splitNl cs).1 with
      | nil =>
        simp only [splitNl, if_neg hc, h]
        intro hmem
        rcases List.mem_cons.mp hmem with h1 | h1
        · exact hc h1.symm
        · exact ih h1
      | cons l ls => simpa [splitNl, if_neg hc, h] using ih

/-- A newline-free text splits into no complete lines with itself as the
trailing fragment. -/
theorem splitNl_of_no_nl {cs : List Char} (h : '\n' ∉ cs) :
    splitNl cs = ([], cs) := by
  induction cs with
  | nil => simp [splitNl]
  | cons c cs ih =>
    have hc : ¬c = '\n' := fun he => h (he ▸ List.mem_cons_self c cs)
    have ht : '\n' ∉ cs := fun hm => h (List.mem_cons_of_mem c hm)
    simp [splitNl, if_neg hc, ih ht]

theorem chunkLinesNB_spec (chunks : List (List Char)) : ∀ carry : List Char,
    '\n' ∉ carry → chunkLinesNB carry chunks = splitNl (carry ++ chunks.flatten) := by
  induction chunks with
  | nil =>
    intro carry h
    simp [chunkLinesNB, splitNl_of_no_nl h]
  | cons c cs ih =>
    intro carry h
    simp only [chunkLinesNB, ih _ (splitNl_snd_no_nl (carry ++ c)),
      List.flatten_cons, ← List.append_assoc, splitNl_append (carry ++ c) cs.flatten]

theorem takeThru_of_not_any {p : α → Bool} {l : List α} (h : l.any p = false) :
    takeThru p l = l := by
  induction l with
  | nil => rfl
  | cons x xs ih =>
    simp only [List.any_cons, Bool.or_eq_false_iff] at h
    simp [takeThru, h.1, ih h.2]

theorem takeThru_append (p : α → Bool) (a b : List α) :
    takeThru p (a ++ b) = if a.any p then takeThru p a else a ++ takeThru p b := by
  induction a with
  | nil => simp
  | cons x xs ih =>
    by_cases hx : p x
    · simp [takeThru, hx]
    · by_cases hxs : xs.any p <;>
        simp [takeThru, hx, List.append_eq, ih, hxs]

/-- Splitting a processed-lines list at its first stop element. -/
theorem takeThru_eq_of_any {p : α → Bool} {l : List α} (h : l.any p = true) :
    ∃ pre x post, l = pre ++ x :: post ∧ pre.any p = false ∧ p x = true ∧
      takeThru p l = pre ++ [x] := by
  induction l with
  | nil => simp at h
  | cons y ys ih =>
    by_cases hy : p y
    · exact ⟨[], y, ys, by simp, by simp, hy, by simp [takeThru, hy]⟩
    · have hys : ys.any p = true := by
        simpa [List.any_cons, hy] using h
      obtain ⟨pre, x, post, he, hp, hx, ht⟩ := ih hys
      exact ⟨y :: pre, x, post, by simp [he], by simp [hy, hp], hx,
        by simp [takeThru, hy, ht]⟩

/-- Per-chunk truncation only defers lines after the first stop; the
truncated concatenation still begins with the global truncation, and no
stop at all means no truncation anywhere. -/
theorem flatMap_takeThru (p : α → Bool) (LS : List (List α)) :
    ∃ junk, LS.flatMap (takeThru p) = takeThru p LS.flatten ++ junk ∧
      (LS.flatten.any p = false → junk = []) := by
  induction LS with
  | nil => exact ⟨[], by simp [takeThru], by simp⟩
  | cons L LS ih =>
    obtain ⟨junk, hj, hnone⟩ := ih
    by_cases hL : L.any p
    · refine ⟨LS.flatMap (takeThru p), ?_, ?_⟩
      · simp [List.flatMap_cons, takeThru_append, hL]
      · intro hfa
        simp [List.any_append, hL] at hfa
    · refine ⟨junk, ?_, ?_⟩
      · simp [List.flatMap_cons, takeThru_append, hL,
          takeThru_of_not_any (by simpa using hL), hj]
      · intro hfa
        simp only [List.flatten_cons, List.any_append, Bool.or_eq_false_iff] at hfa
        exact hnone hfa.2

/-- The broken chunk loop and the unbroken one agree on the final carry. -/
theorem chunkLines_snd (chunks : List (List Char)) : ∀ carry : List Char,
    (chunkLines carry chunks).2 = (chunkLinesNB carry chunks).2 := by
  induction chunks with
  | nil => intro carry; rfl
  | cons c cs ih => intro carry; simp [chunkLines, chunkLinesNB, ih]

/-- The lines processed by the broken chunk loop are the per-chunk
truncations of the full line decomposition. -/
theorem chunkLines_fst (chunks : List (List Char)) : ∀ carry : List Char,
    '\n' ∉ carry →
    ∃ junk, (chunkLines carry chunks).1 =
        takeThru isStopLine (splitNl (carry ++ chunks.flatten)).1 ++ junk ∧
      ((splitNl (carry ++ chunks.flatten)).1.any isStopLine = false → junk = []) := by
  induction chunks with
  | nil =>
    intro carry h
    exact ⟨[], by simp [chunkLines, splitNl_of_no_nl h, takeThru], by simp⟩
  | cons c cs ih =>
    intro carry h
    obtain ⟨junk, hj, hnone⟩ := ih (splitNl (carry ++ c)).2 (splitNl_snd_no_nl _)
    rw [List.flatten_cons, ← List.append_assoc]
    rw [splitNl_append (carry ++ c) cs.flatten]
    by_cases hL : (splitNl (carry ++ c)).1.any isStopLine
    · refine ⟨(chunkLines (splitNl (carry ++ c)).2 cs).1, ?_, ?_⟩
      · simp [chunkLines, takeThru_append, hL]
      · intro hfa
        simp [List.any_append, hL] at hfa
    · refine ⟨junk, ?_, ?_⟩
      · simp [chunkLines, takeThru_append, hL,
          takeThru_of_not_any (by simpa using hL), hj]
      · intro hfa
        simp only [List.any_append, Bool.or_eq_false_iff] at hfa
        exact hnone hfa.2

theorem runLines_append (a b : List (List Char)) : ∀ opn : Bool,
    runLines opn (a ++ b) =
      ((runLines (runLines opn a).1 b).1,
        (runLines opn a).2 ++ (runLines (runLines opn a).1 b).2) := by
  induction a with
  | nil => intro opn; simp [runLines]
  | cons l ls ih => intro opn; simp [runLines, ih]

theorem fieldIsStr_ne {v : JVal} {f s t : String} (h : fieldIsStr v f s = true)
    (hne : s ≠ t) : fieldIsStr v f t = false := by
  unfold fieldIsStr at h ⊢
  cases hv : v.getF f with
  | none => simp [hv] at h
  | some w =>
    rw [hv] at h
    cases w with
    | jstr u =>
      have hu : u = s := by simpa using h
      subst hu
      simpa using hne
    | jnull => simp at h
    | jbool b => simp at h
    | jnum x => simp at h
    | jarr a => simp at h
    | jobj m => simp at h

/-- A `message_stop` record emits exactly `TurnEnd` and leaves the
open-call flag alone (the code only does `break`). -/
theorem claudeLineStep_stop {l : List Char} (h : isStopLine l = true)
    (opn : Bool) : claudeLineStep opn l = (opn, [SEvent.turnEnd]) := by
  unfold isStopLine at h
  cases hrec : lineRecord l with
  | none => rw [hrec] at h; exact absurd h (by simp)
  | some d =>
    rw [hrec] at h
    simp only [] at h
    have h1 : typeIs d "content_block_start" = false :=
      fieldIsStr_ne h (by decide)
    have h2 : typeIs d "content_block_delta" = false :=
      fieldIsStr_ne h (by decide)
    have h3 : typeIs d "content_block_stop" = false :=
      fieldIsStr_ne h (by decide)
    unfold claudeLineStep
    rw [hrec]
    simp only []
    rw [if_neg (by simp [h1]), if_neg (by simp [h2]), if_neg (by simp [h3]),
      if_pos h]

/-- Lines other than `message_stop` records never emit `TurnEnd`. -/
theorem claudeLineStep_not_stop {l : List Char} {opn : Bool}
    (h : isStopLine l = false) :
    ∀ e ∈ (claudeLineStep opn l).2, isTurnEnd e = false := by
  unfold isStopLine at h
  unfold claudeLineStep
  cases hrec : lineRecord l with
  | none => simp
  | some d =>
    rw [hrec] at h
    simp only [] at h
    intro e he
    simp only [] at he
    by_cases h1 : typeIs d "content_block_start" = true
    · rw [if_pos h1] at he
      cases hcb : d.getF "content_block" with
      | none => rw [hcb] at he; simp at he
      | some cb =>
        rw [hcb] at he
        simp only [] at he
        by_cases h2 : (cb.truthy && fieldIsStr cb "type" "tool_use") = true
        · rw [if_pos h2] at he
          simp at he
          subst he; rfl
        · rw [if_neg h2] at he; simp at he
    · rw [if_neg h1] at he
      by_cases h2 : typeIs d "content_block_delta" = true
      · rw [if_pos h2] at he
        cases hdl : d.getF "delta" with
        | none => rw [hdl] at he; simp at he
        | some dl =>
          rw [hdl] at he
          simp only [] at he
          by_cases h3 : (dl.truthy && fieldIsStr dl "type" "text_delta") = true
          · rw [if_pos h3] at he
            simp at he
            subst he; rfl
          · rw [if_neg h3] at he
            by_cases h4 :
                (dl.truthy && fieldIsStr dl "type" "input_json_delta" && opn) = true
            · rw [if_pos h4] at he
              simp at he
              subst he; rfl
            · rw [if_neg h4] at he; simp at he
      · rw [if_neg h2] at he
        by_cases h3 : typeIs d "content_block_stop" = true
        · rw [if_pos h3] at he
          by_cases h4 : opn = true
          · rw [if_pos h4] at he
            simp at he
            subst he; rfl
          · rw [if_neg h4] at he; simp at he
        · rw [if_neg h3, if_neg (by simp [h])] at he
          simp at he

theorem runLines_no_turnEnd {ls : List (List Char)}
    (h : ∀ l ∈ ls, isStopLine l = false) : ∀ opn : Bool,
    ∀ e ∈ (runLines opn ls).2, isTurnEnd e = false := by
  induction ls with
  | nil => intro opn e he; simp [runLines] at he
  | cons l ls ih =>
    intro opn e he
    simp only [runLines, List.mem_append] at he
    rcases he with he | he
    · exact claudeLineStep_not_stop (h l (List.mem_cons_self l ls)) e he
    · exact ih (fun x hx => h x (List.mem_cons_of_mem l hx)) _ e he

theorem flushEvents_no_turnEnd (c : List Char) :
    ∀ e ∈ flushEvents c, isTurnEnd e = false := by
  unfold flushEvents
  cases hrec : lineRecord c with
  | none => simp
  | some d =>
    intro e he
    simp only [] at he
    by_cases h1 : typeIs d "content_block_delta" = true
    · rw [if_pos h1] at he
      cases hdl : d.getF "delta" with
      | none => rw [hdl] at he; simp at he
      | some dl =>
        rw [hdl] at he
        simp only [] at he
        by_cases h2 : (dl.truthy && fieldIsStr dl "type" "text_delta") = true
        · rw [if_pos h2] at he
          simp at he
          subst he; rfl
        · rw [if_neg h2] at he; simp at he
    · rw [if_neg h1] at he; simp at he

theorem claudeEvents_single (s : List Char) :
    claudeEvents [s] =
      (runLines false (takeThru isStopLine (splitNl s).1)).2 ++
        flushEvents (splitNl s).2 := by
  simp [claudeEvents, chunkLines]

theorem upToTurnEnd_append_stop {pre rest : List SEvent}
    (h : ∀ e ∈ pre, isTurnEnd e = false) :
    upToTurnEnd (pre ++ SEvent.turnEnd :: rest) = pre ++ [SEvent.turnEnd] := by
  have hfa : pre.any isTurnEnd = false :=
    List.any_eq_false.mpr (fun e he => by simp [h e he])
  unfold upToTurnEnd
  rw [takeThru_append, if_neg (by simp [hfa])]
  simp [takeThru, isTurnEnd]

/-- Core of the amended C1 statement for the Anthropic dialect: any chunking
agrees with the one-chunk feed on all events up to and including the first
`TurnEnd`. -/
theorem claude_prefix_invariant (chunks : List (List Char)) :
    upToTurnEnd (claudeEvents chunks) = upToTurnEnd (claudeEvents [chunks.flatten]) := by
  obtain ⟨junk, hj, hnone⟩ := chunkLines_fst chunks [] (by simp)
  simp only [List.nil_append] at hj hnone
  have hsnd : (chunkLines [] chunks).2 = (splitNl chunks.flatten).2 := by
    rw [chunkLines_snd, chunkLinesNB_spec _ _ (by simp)]
    simp
  by_cases hA : (splitNl chunks.flatten).1.any isStopLine = true
  · obtain ⟨pre, x, post, hAeq, hpre, hx, htT⟩ := takeThru_eq_of_any hA
    have hns : ∀ l ∈ pre, isStopLine l = false := by
      intro l hl
      have := List.any_eq_false.mp hpre l hl
      simpa using this
    have hnoTE : ∀ e ∈ (runLines false pre).2, isTurnEnd e = false :=
      runLines_no_turnEnd hns false
    have hLHS : claudeEvents chunks =
        (runLines false pre).2 ++ SEvent.turnEnd ::
          ((runLines (runLines false pre).1 junk).2 ++
            flushEvents (splitNl chunks.flatten).2) := by
      simp only [claudeEvents]
      rw [hj, hsnd, htT]
      rw [List.append_assoc, List.singleton_append, runLines_append]
      have hstep := claudeLineStep_stop hx (runLines false pre).1
      simp [runLines, hstep]
    have hRHS : claudeEvents [chunks.flatten] =
        (runLines false pre).2 ++ SEvent.turnEnd ::
          flushEvents (splitNl chunks.flatten).2 := by
      rw [claudeEvents_single, htT, runLines_append]
      have hstep := claudeLineStep_stop hx (runLines false pre).1
      simp [runLines, hstep]
    rw [hLHS, hRHS, upToTurnEnd_append_stop hnoTE, upToTurnEnd_append_stop hnoTE]
  · have hA2 : (splitNl chunks.flatten).1.any isStopLine = false := by
      simpa using hA
    have hjunk : junk = [] := hnone hA2
    rw [claudeEvents_single]
    simp only [claudeEvents]
    rw [hj, hsnd, hjunk, List.append_nil]

/-- The Ollama NDJSON loop is fully chunk-boundary independent. -/
theorem ollama_split_invariant (chunks : List (List Char)) :
    ollamaYields chunks = ollamaYields [chunks.flatten] := by
  unfold ollamaYields
  rw [chunkLinesNB_spec _ _ (by simp), chunkLinesNB_spec _ _ (by simp)]
  simp [chunkLinesNB]

set_option maxRecDepth 10000 in
/-- C1 counterexample: the same logical byte stream (all ASCII, so byte
offsets and character offsets coincide) fed as two chunks split at a line
boundary yields a different event sequence than fed as one chunk, because
the `message_stop` `break` only skips the remaining lines of the current
chunk. -/
theorem ronin_c1_counterexample :
    claudeEvents [stopLineChunk, textLineChunk] ≠
      claudeEvents [stopLineChunk ++ textLineChunk] := by
  intro h
  have h2 : (claudeEvents [stopLineChunk, textLineChunk]).length = 2 := by decide
  rw [h] at h2
  have h1 : (claudeEvents [stopLineChunk ++ textLineChunk]).length = 1 := by decide
  rw [h1] at h2
  exact absurd h2 (by decide)

/-- C1 (amended): for every way of splitting a logical stream into chunks,
the Anthropic-dialect loop produces the same event sequence as the
one-chunk feed up to and including the first turn-end event (after a
turn-end the remaining lines of only the current chunk are skipped, so
later events may differ), and the Ollama-dialect loop produces the same
full yield sequence. -/
theorem ronin_c1_chunk_invariance (chunks : List (List Char)) :
    upToTurnEnd (claudeEvents chunks) = upToTurnEnd (claudeEvents [chunks.flatten]) ∧
      ollamaYields chunks = ollamaYields [chunks.flatten] :=
  ⟨claude_prefix_invariant chunks, ollama_split_invariant chunks⟩

/-! ### PermissionCache lemmas and claims C7 / C8 -/

theorem lookup_setKey_self (k : String) (v : ApprovalRec) :
    ∀ l : List (String × ApprovalRec), (setKey k v l).lookup k = some v := by
  intro l
  induction l with
  | nil => simp [setKey, List.lookup]
  | cons p rest ih =>
    obtain ⟨k2, v2⟩ := p
    by_cases h : k2 == k
    · simp only [setKey, h, if_pos]
      have : k == k2 := by
        rw [beq_iff_eq] at h ⊢
        exact h.symm
      simp [List.lookup, this]
    · simp only [setKey, h, if_false, Bool.false_eq_true]
      have : (k == k2) = false := by
        simp only [beq_iff_eq] at h
        exact beq_eq_false_iff_ne.mpr fun he => h he.symm
      simp [List.lookup, this, ih]

theorem lookup_eq_none_of_not_mem_keys {k : String}
    {l : List (String × ApprovalRec)} (h : k ∉ l.map Prod.fst) :
    l.lookup k = none := by
  induction l with
  | nil => rfl
  | cons p rest ih =>
    obtain ⟨k2, v2⟩ := p
    simp only [List.map_cons, List.mem_cons] at h
    push_neg at h
    have hne : (k == k2) = false := beq_eq_false_iff_ne.mpr h.1
    simp [List.lookup, hne, ih h.2]

theorem mem_keys_setKey {x k : String} {v : ApprovalRec}
    {l : List (String × ApprovalRec)}
    (h : x ∈ (setKey k v l).map Prod.fst) : x ∈ l.map Prod.fst ∨ x = k := by
  induction l with
  | nil =>
    simp [setKey] at h
    exact Or.inr h
  | cons p rest ih =>
    obtain ⟨k2, v2⟩ := p
    by_cases hk : k2 == k
    · simp only [setKey, hk, if_pos] at h
      simp only [List.map_cons, List.mem_cons] at h ⊢
      rcases h with h | h
      · exact Or.inl (Or.inl h)
      · exact Or.inl (Or.inr h)
    · simp only [setKey, hk, if_false, Bool.false_eq_true] at h
      simp only [List.map_cons, List.mem_cons] at h ⊢
      rcases h with h | h
      · exact Or.inl (Or.inl h)
      · rcases ih h with h2 | h2
        · exact Or.inl (Or.inr h2)
        · exact Or.inr h2

theorem nodup_keys_setKey {k : String} {v : ApprovalRec}
    {l : List (String × ApprovalRec)} (h : (l.map Prod.fst).Nodup) :
    ((setKey k v l).map Prod.fst).Nodup := by
  induction l with
  | nil => simp [setKey]
  | cons p rest ih =>
    obtain ⟨k2, v2⟩ := p
    simp only [List.map_cons, List.nodup_cons] at h
    by_cases hk : k2 == k
    · simp only [setKey, hk, if_pos, List.map_cons, List.nodup_cons]
      exact ⟨h.1, h.2⟩
    · simp only [setKey, hk, if_false, Bool.false_eq_true, List.map_cons,
        List.nodup_cons]
      refine ⟨fun hmem => ?_, ih h.2⟩
      rcases mem_keys_setKey hmem with h2 | h2
      · exact h.1 h2
      · simp only [beq_iff_eq] at hk
        exact hk h2

theorem lookup_delKey_self {k : String} {l : List (String × ApprovalRec)}
    (h : (l.map Prod.fst).Nodup) : (delKey k l).lookup k = none := by
  induction l with
  | nil => rfl
  | cons p rest ih =>
    obtain ⟨k2, v2⟩ := p
    simp only [List.map_cons, List.nodup_cons] at h
    by_cases hk : k2 == k
    · simp only [delKey, hk, if_pos]
      have hkk : k ∉ rest.map Prod.fst := by
        rw [beq_iff_eq] at hk
        exact hk ▸ h.1
      exact lookup_eq_none_of_not_mem_keys hkk
    · have : (k == k2) = false := by
        simp only [beq_iff_eq] at hk
        exact beq_eq_false_iff_ne.mpr fun he => hk he.symm
      simp [delKey, hk, List.lookup, this, ih h.2]

/-- C7: a record inserted at time `T` with the 24-hour TTL is still
approved when queried at `T+TTL-1` ms, and at `T+TTL+1` ms it is not
approved and the expired record has been purged from the store (lazy
expiry at read time). -/
theorem ronin_c7_ttl_expiry (hash : String → String) (c : PermCache)
    (toolName : String) (input : JVal) (T : Int)
    (hask : c.alwaysAsk = false)
    (hnd : (c.approvedTools.map Prod.fst).Nodup) :
    ((isApproved hash (T + ttlMs - 1)
        (addApproval hash T c toolName input true) toolName input).1 = true) ∧
    ((isApproved hash (T + ttlMs + 1)
        (addApproval hash T c toolName input true) toolName input).1 = false) ∧
    ((isApproved hash (T + ttlMs + 1)
        (addApproval hash T c toolName input true) toolName input).2.approvedTools.lookup
          (generateKey hash toolName input) = none) := by
  have hadd : addApproval hash T c toolName input true =
      { c with approvedTools :=
          (setKey (generateKey hash toolName input)
            (ApprovalRec.mk toolName T (createSummary toolName input))
            c.approvedTools) } := rfl
  have hask1 : (addApproval hash T c toolName input true).alwaysAsk = false := by
    rw [hadd]; exact hask
  have hlook : (addApproval hash T c toolName input true).approvedTools.lookup
      (generateKey hash toolName input) =
      some (ApprovalRec.mk toolName T (createSummary toolName input)) := by
    rw [hadd]
    exact lookup_setKey_self _ _ _
  have hage1 : ¬(T + ttlMs - 1 - T > ttlMs) := by omega
  have hage2 : T + ttlMs + 1 - T > ttlMs := by omega
  refine ⟨?_, ?_, ?_⟩
  · rw [isApproved, if_neg (by simp [hask1]), hlook]
    simp only []
    rw [if_neg hage1]
  · rw [isApproved, if_neg (by simp [hask1]), hlook]
    simp only []
    rw [if_pos hage2]
  · rw [isApproved, if_neg (by simp [hask1]), hlook]
    simp only []
    rw [if_pos hage2]
    simp only []
    rw [hadd]
    simp only []
    exact lookup_delKey_self (nodup_keys_setKey hnd)

/-- C7 witness: concrete instantiation at `T = 0` with an empty store. -/
theorem ronin_c7_witness :
    (PermCache.mk [] false).alwaysAsk = false ∧
    ((([] : List (String × ApprovalRec)).map Prod.fst).Nodup) ∧
    ((isApproved (fun s => s) (ttlMs - 1)
        (addApproval (fun s => s) 0 (PermCache.mk [] false) "file_read"
          (JVal.jobj [("path", JVal.jstr "/tmp/a")]) true) "file_read"
        (JVal.jobj [("path", JVal.jstr "/tmp/a")])).1 = true) :=
  ⟨rfl, List.nodup_nil,
    by
      have h := ronin_c7_ttl_expiry (fun s => s) (PermCache.mk [] false)
        "file_read" (JVal.jobj [("path", JVal.jstr "/tmp/a")]) 0 rfl
        List.nodup_nil
      simpa using h.1⟩

/-- C8: with the always-ask flag set, `isApproved` returns false and does
not touch the store; clearing the flag restores the exact prior behavior
(the override never deletes cached records). -/
theorem ronin_c8_always_ask_override (hash : String → String) (now : Int)
    (c : PermCache) (toolName : String) (input : JVal)
    (hask : c.alwaysAsk = false) :
    ((isApproved hash now (setAlwaysAsk c true) toolName input).1 = false) ∧
    ((isApproved hash now (setAlwaysAsk c true) toolName input).2.approvedTools
        = c.approvedTools) ∧
    (isApproved hash now (setAlwaysAsk (setAlwaysAsk c true) false) toolName input
        = isApproved hash now c toolName input) := by
  refine ⟨by simp [isApproved, setAlwaysAsk], by simp [isApproved, setAlwaysAsk], ?_⟩
  have hc : setAlwaysAsk (setAlwaysAsk c true) false = c := by
    cases c
    simp only [setAlwaysAsk] at hask ⊢
    simp_all
  rw [hc]

/-- C8 witness: a cached, unexpired key approved before the flag is set,
denied while it is set, and approved again after it is cleared. -/
theorem ronin_c8_witness :
    (PermCache.mk [("file_read:k", ApprovalRec.mk "file_read" 0 "s")] false).alwaysAsk
        = false ∧
    ((isApproved (fun _ => "k") 5
        (setAlwaysAsk
          (PermCache.mk [("file_read:k", ApprovalRec.mk "file_read" 0 "s")] false)
          true) "file_read" JVal.jnull).1 = false) ∧
    (isApproved (fun _ => "k") 5
        (setAlwaysAsk
          (setAlwaysAsk
            (PermCache.mk [("file_read:k", ApprovalRec.mk "file_read" 0 "s")] false)
            true) false) "file_read" JVal.jnull
      = isApproved (fun _ => "k") 5
          (PermCache.mk [("file_read:k", ApprovalRec.mk "file_read" 0 "s")] false)
          "file_read" JVal.jnull) :=
  ⟨rfl,
    (ronin_c8_always_ask_override (fun _ => "k") 5
      (PermCache.mk [("file_read:k", ApprovalRec.mk "file_read" 0 "s")] false)
      "file_read" JVal.jnull rfl).1,
    (ronin_c8_always_ask_override (fun _ => "k") 5
      (PermCache.mk [("file_read:k", ApprovalRec.mk "file_read" 0 "s")] false)
      "file_read" JVal.jnull rfl).2.2⟩

/-! ### generateKey canonicalization (claim C9) -/

theorem lookup_mem {l : List (String × JVal)} {k : String} {v : JVal}
    (h : l.lookup k = some v) : (k, v) ∈ l := by
  induction l with
  | nil => simp [List.lookup] at h
  | cons p rest ih =>
    obtain ⟨k2, v2⟩ := p
    rw [List.lookup] at h
    cases hk : (k == k2) with
    | true =>
      rw [hk] at h
      simp only [] at h
      rw [beq_iff_eq] at hk
      subst hk
      simp at h
      simp [h]
    | false =>
      rw [hk] at h
      simp only [] at h
      exact List.mem_cons_of_mem _ (ih h)

theorem lookup_eq_of_mem_nodup {l : List (String × JVal)} {k : String} {v : JVal}
    (hn : (l.map Prod.fst).Nodup) (hm : (k, v) ∈ l) : l.lookup k = some v := by
  induction l with
  | nil => simp at hm
  | cons p rest ih =>
    obtain ⟨k2, v2⟩ := p
    simp only [List.map_cons, List.nodup_cons] at hn
    rcases List.mem_cons.mp hm with h | h
    · injection h with h1 h2
      subst h1; subst h2
      simp [List.lookup]
    · have hne : (k == k2) = false := by
        refine beq_eq_false_iff_ne.mpr (fun he => ?_)
        subst he
        exact hn.1 (List.mem_map.mpr ⟨(k, v), h, rfl⟩)
      rw [List.lookup, hne]
      simp only []
      exact ih hn.2 h

theorem permEqMembers_forall {as bs : List (String × JVal)}
    (h : permEqMembers as bs = true) :
    ∀ p ∈ as, ∃ w, bs.lookup p.1 = some w ∧ permEqB p.2 w = true := by
  induction as with
  | nil => simp
  | cons p rest ih =>
    obtain ⟨k, v⟩ := p
    rw [permEqMembers] at h
    rw [Bool.and_eq_true] at h
    intro q hq
    rcases List.mem_cons.mp hq with hq | hq
    · subst hq
      cases hl : bs.lookup k with
      | none => rw [hl] at h; exact absurd h.1 (by simp)
      | some w =>
        rw [hl] at h
        exact ⟨w, rfl, h.1⟩
    · exact ih h.2 q hq

theorem keysIncluded_forall {as bs : List (String × JVal)}
    (h : keysIncluded as bs = true) :
    ∀ p ∈ as, ∃ v, bs.lookup p.1 = some v := by
  intro p hp
  unfold keysIncluded at h
  rw [List.all_eq_true] at h
  have := h p hp
  cases hl : bs.lookup p.1 with
  | none => rw [hl] at this; simp at this
  | some v => exact ⟨v, rfl⟩

theorem mem_sortObjectMembers {x : String × JVal} :
    ∀ {ms : List (String × JVal)},
    (x ∈ sortObjectMembers ms ↔ ∃ k v, (k, v) ∈ ms ∧ x = (k, sortObject v))
  | [] => by simp [sortObjectMembers]
  | (k2, v2) :: rest => by
    rw [sortObjectMembers]
    constructor
    · intro hx
      rcases List.mem_cons.mp hx with h | h
      · exact ⟨k2, v2, List.mem_cons_self _ _, h⟩
      · obtain ⟨k, v, hm, he⟩ := mem_sortObjectMembers.mp h
        exact ⟨k, v, List.mem_cons_of_mem _ hm, he⟩
    · rintro ⟨k, v, hm, he⟩
      rcases List.mem_cons.mp hm with h | h
      · injection h with h1 h2
        subst h1; subst h2
        rw [he]
        exact List.mem_cons_self _ _
      · exact List.mem_cons_of_mem _ (mem_sortObjectMembers.mpr ⟨k, v, h, he⟩)

theorem map_fst_sortObjectMembers (ms : List (String × JVal)) :
    (sortObjectMembers ms).map Prod.fst = ms.map Prod.fst := by
  induction ms with
  | nil => rfl
  | cons p rest ih =>
    obtain ⟨k, v⟩ := p
    simp [sortObjectMembers, ih]

theorem nodupKeysMembers_mem {ms : List (String × JVal)} {k : String} {v : JVal}
    (h : nodupKeysMembers ms = true) (hm : (k, v) ∈ ms) : nodupKeysB v = true := by
  induction ms with
  | nil => simp at hm
  | cons p rest ih =>
    obtain ⟨k2, v2⟩ := p
    rw [nodupKeysMembers, Bool.and_eq_true] at h
    rcases List.mem_cons.mp hm with hq | hq
    · injection hq with h1 h2
      subst h2
      exact h.1
    · exact ih h.2 hq

theorem nodupKeysArr_mem {es : List JVal} {v : JVal}
    (h : nodupKeysArr es = true) (hm : v ∈ es) : nodupKeysB v = true := by
  induction es with
  | nil => simp at hm
  | cons w rest ih =>
    rw [nodupKeysArr, Bool.and_eq_true] at h
    rcases List.mem_cons.mp hm with hq | hq
    · subst hq; exact h.1
    · exact ih h.2 hq

/-- A key-sorted association list with distinct keys is determined by its
entry set: two sorted permutations of each other are equal. -/
theorem sorted_key_unique : ∀ {l1 l2 : List (String × JVal)}, l1.Perm l2 →
    l1.Pairwise keyLe → l2.Pairwise keyLe → (l1.map Prod.fst).Nodup → l1 = l2 := by
  intro l1
  induction l1 with
  | nil =>
    intro l2 hp _ _ _
    exact hp.nil_eq
  | cons p t1 ih =>
    intro l2 hp hs1 hs2 hn
    cases l2 with
    | nil => exact absurd hp.symm.nil_eq (by simp)
    | cons q t2 =>
      by_cases hpq : p = q
      · subst hpq
        have ht := ih hp.cons_inv (List.Pairwise.of_cons hs1)
          (List.Pairwise.of_cons hs2) (by simpa using (List.nodup_cons.mp (by simpa using hn)).2)
        rw [ht]
      · exfalso
        have hpmem : p ∈ q :: t2 := hp.subset (List.mem_cons_self p t1)
        have hqmem : q ∈ p :: t1 := hp.symm.subset (List.mem_cons_self q t2)
        have hp2 : p ∈ t2 := by
          rcases List.mem_cons.mp hpmem with h | h
          · exact absurd h hpq
          · exact h
        have hq1 : q ∈ t1 := by
          rcases List.mem_cons.mp hqmem with h | h
          · exact absurd h.symm hpq
          · exact h
        have h1 : keyLe p q := (List.pairwise_cons.mp hs1).1 q hq1
        have h2 : keyLe q p := (List.pairwise_cons.mp hs2).1 p hp2
        have hkey : p.1 = q.1 := String.ext (le_antisymm h1 h2)
        have hmem : p.1 ∈ t1.map Prod.fst := by
          rw [hkey]
          exact List.mem_map.mpr ⟨q, hq1, rfl⟩
        exact (List.nodup_cons.mp (by simpa using hn)).1 hmem

/-- Sorting by key is invariant under permutation of distinct-keyed
entries. -/
theorem sortByKey_eq_of_perm {A B : List (String × JVal)} (hp : A.Perm B)
    (hn : (A.map Prod.fst).Nodup) : sortByKey A = sortByKey B := by
  have hperm : (sortByKey A).Perm (sortByKey B) :=
    ((List.perm_insertionSort keyLe A).trans hp).trans
      (List.perm_insertionSort keyLe B).symm
  have hkeysA : ((sortByKey A).map Prod.fst).Perm (A.map Prod.fst) :=
    (List.perm_insertionSort keyLe A).map Prod.fst
  exact sorted_key_unique hperm (List.sorted_insertionSort keyLe A)
    (List.sorted_insertionSort keyLe B) (hkeysA.symm.nodup hn)

/-- Auxiliary for arrays: pointwise equivalence gives pointwise equal
canonical forms. -/
theorem sortObjectArr_eq_aux (n : Nat)
    (ih : ∀ a b : JVal, sizeOf a ≤ n → nodupKeysB a = true →
      nodupKeysB b = true → permEqB a b = true → sortObject a = sortObject b) :
    ∀ as bs : List JVal, sizeOf as ≤ n → nodupKeysArr as = true →
      nodupKeysArr bs = true → permEqArr as bs = true →
      sortObjectArr as = sortObjectArr bs := by
  intro as
  induction as with
  | nil =>
    intro bs _ _ _ hp
    cases bs with
    | nil => rfl
    | cons b bs => simp [permEqArr] at hp
  | cons a rest ih2 =>
    intro bs hsz ha hb hp
    cases bs with
    | nil => simp [permEqArr] at hp
    | cons b bs =>
      rw [permEqArr, Bool.and_eq_true] at hp
      rw [nodupKeysArr, Bool.and_eq_true] at ha hb
      have hsa : sizeOf a ≤ n := by
        have : sizeOf a < sizeOf (a :: rest) := List.sizeOf_lt_of_mem (List.mem_cons_self a rest)
        omega
      have hsr : sizeOf rest ≤ n := by
        have : sizeOf (a :: rest) = 1 + sizeOf a + sizeOf rest := by simp
        have hz : 0 < sizeOf a := by cases a <;> simp
        omega
      have h1 := ih a b hsa ha.1 hb.1 hp.1
      have h2 := ih2 bs hsr ha.2 hb.2 hp.2
      simp [sortObjectArr, h1, h2]

/-- Canonicalization respects key-reordering equivalence: `sortObject`
sends equivalent values (with distinct object keys) to the same canonical
form.  The bound `n` drives the induction on value size. -/
theorem sortObject_eq_of_permEq :
    ∀ (n : Nat) (a b : JVal), sizeOf a ≤ n → nodupKeysB a = true →
      nodupKeysB b = true → permEqB a b = true → sortObject a = sortObject b := by
  intro n
  induction n with
  | zero =>
    intro a b hsz _ _ _
    exact absurd hsz (by cases a <;> simp)
  | succ n ih =>
    intro a b hsz ha hb hper
    cases a with
    | jnull => cases b <;> simp_all [permEqB, sortObject]
    | jbool x => cases b <;> simp_all [permEqB, sortObject]
    | jnum x => cases b <;> simp_all [permEqB, sortObject]
    | jstr x => cases b <;> simp_all [permEqB, sortObject]
    | jarr as =>
      cases b with
      | jarr bs =>
        simp only [sortObject, JVal.jarr.injEq]
        refine sortObjectArr_eq_aux n ih as bs ?_ ?_ ?_ ?_
        · have : sizeOf (JVal.jarr as) = 1 + sizeOf as := by simp
          omega
        · simpa [nodupKeysB] using ha
        · simpa [nodupKeysB] using hb
        · simpa [permEqB] using hper
      | jnull => simp [permEqB] at hper
      | jbool y => simp [permEqB] at hper
      | jnum y => simp [permEqB] at hper
      | jstr y => simp [permEqB] at hper
      | jobj ms => simp [permEqB] at hper
    | jobj as =>
      cases b with
      | jobj bs =>
        simp only [sortObject, JVal.jobj.injEq]
        have hszas : sizeOf as ≤ n := by
          have : sizeOf (JVal.jobj as) = 1 + sizeOf as := by simp
          omega
        rw [nodupKeysB, Bool.and_eq_true, decide_eq_true_eq] at ha hb
        rw [permEqB, Bool.and_eq_true] at hper
        have hAkeys := map_fst_sortObjectMembers as
        have hBkeys := map_fst_sortObjectMembers bs
        have hAnodup : (sortObjectMembers as).Nodup :=
          List.Nodup.of_map Prod.fst (hAkeys ▸ ha.1)
        have hBnodup : (sortObjectMembers bs).Nodup :=
          List.Nodup.of_map Prod.fst (hBkeys ▸ hb.1)
        have hiff : ∀ x, x ∈ sortObjectMembers as ↔ x ∈ sortObjectMembers bs := by
          intro x
          constructor
          · intro hx
            obtain ⟨k, v, hkv, he⟩ := mem_sortObjectMembers.mp hx
            obtain ⟨w, hlw, hpw⟩ := permEqMembers_forall hper.1 (k, v) hkv
            have hkw : (k, w) ∈ bs := lookup_mem hlw
            have hvw : sortObject v = sortObject w := by
              refine ih v w ?_ (nodupKeysMembers_mem ha.2 hkv)
                (nodupKeysMembers_mem hb.2 hkw) hpw
              have h1 : sizeOf (k, v) < sizeOf as := List.sizeOf_lt_of_mem hkv
              have h2 : sizeOf (k, v) = 1 + sizeOf k + sizeOf v := by simp
              omega
            refine mem_sortObjectMembers.mpr ⟨k, w, hkw, ?_⟩
            rw [he, hvw]
          · intro hx
            obtain ⟨k, w, hkw, he⟩ := mem_sortObjectMembers.mp hx
            obtain ⟨v, hlv⟩ := keysIncluded_forall hper.2 (k, w) hkw
            have hkv : (k, v) ∈ as := lookup_mem hlv
            obtain ⟨w2, hlw2, hpw2⟩ := permEqMembers_forall hper.1 (k, v) hkv
            have hww : w2 = w := by
              have hbs := lookup_eq_of_mem_nodup hb.1 hkw
              rw [hbs] at hlw2
              injection hlw2 with h3
              exact h3.symm
            subst hww
            have hvw : sortObject v = sortObject w2 := by
              refine ih v w2 ?_ (nodupKeysMembers_mem ha.2 hkv)
                (nodupKeysMembers_mem hb.2 hkw) hpw2
              have h1 : sizeOf (k, v) < sizeOf as := List.sizeOf_lt_of_mem hkv
              have h2 : sizeOf (k, v) = 1 + sizeOf k + sizeOf v := by simp
              omega
            refine mem_sortObjectMembers.mpr ⟨k, v, hkv, ?_⟩
            rw [he, hvw]
        have hperm : (sortObjectMembers as).Perm (sortObjectMembers bs) :=
          (List.perm_ext_iff_of_nodup hAnodup hBnodup).mpr hiff
        exact sortByKey_eq_of_perm hperm (hAkeys ▸ ha.1)
      | jnull => simp [permEqB] at hper
      | jbool y => simp [permEqB] at hper
      | jnum y => simp [permEqB] at hper
      | jstr y => simp [permEqB] at hper
      | jarr es => simp [permEqB] at hper

/-- C9 (confirmed): for every tool other than the two special-cased ones,
`generateKey` is canonicalizing: inputs equal up to recursive reordering
of (distinct) object keys produce the same key, whatever the digest
function; determinism is definitional, as the embedding is a pure
function of its arguments. -/
theorem ronin_c9_generateKey_canonical (hash : String → String)
    (toolName : String) (a b : JVal)
    (hta : toolName ≠ "file_write") (htb : toolName ≠ "shell_execute")
    (ha : nodupKeysB a = true) (hb : nodupKeysB b = true)
    (hper : permEqB a b = true) :
    generateKey hash toolName a = generateKey hash toolName b := by
  have hs : sortObject a = sortObject b :=
    sortObject_eq_of_permEq (sizeOf a) a b le_rfl ha hb hper
  have h1 : (toolName == "file_write") = false := beq_eq_false_iff_ne.mpr hta
  have h2 : (toolName == "shell_execute") = false := beq_eq_false_iff_ne.mpr htb
  simp [generateKey, h1, h2, hs]

/-- C9 witness: two concrete nested inputs differing only in member
order, with a concrete digest function. -/
theorem ronin_c9_witness :
    ("file_read" : String) ≠ "file_write" ∧ ("file_read" : String) ≠ "shell_execute" ∧
    nodupKeysB (JVal.jobj [("b", JVal.jnum "1"),
      ("a", JVal.jobj [("y", JVal.jstr "u"), ("x", JVal.jnull)])]) = true ∧
    nodupKeysB (JVal.jobj [("a", JVal.jobj [("x", JVal.jnull), ("y", JVal.jstr "u")]),
      ("b", JVal.jnum "1")]) = true ∧
    permEqB (JVal.jobj [("b", JVal.jnum "1"),
        ("a", JVal.jobj [("y", JVal.jstr "u"), ("x", JVal.jnull)])])
      (JVal.jobj [("a", JVal.jobj [("x", JVal.jnull), ("y", JVal.jstr "u")]),
        ("b", JVal.jnum "1")]) = true ∧
    generateKey (fun s => s) "file_read"
        (JVal.jobj [("b", JVal.jnum "1"),
          ("a", JVal.jobj [("y", JVal.jstr "u"), ("x", JVal.jnull)])]) =
      generateKey (fun s => s) "file_read"
        (JVal.jobj [("a", JVal.jobj [("x", JVal.jnull), ("y", JVal.jstr "u")]),
          ("b", JVal.jnum "1")]) :=
  ⟨by decide, by decide, by decide, by decide, by decide,
    ronin_c9_generateKey_canonical (fun s => s) "file_read" _ _
      (by decide) (by decide) (by decide) (by decide) (by decide)⟩

/-! ### Reload lemmas and claim C5 -/

theorem connectServerStep_disabled (outcome : String → Bool) (st : MgrState)
    (name : String) (cfg : HostCfg) :
    (connectServerStep outcome st name cfg).1.disabledServers = st.disabledServers := by
  unfold connectServerStep
  split_ifs <;> rfl

theorem connectServerStep_servers_mono (outcome : String → Bool) (st : MgrState)
    (name : String) (cfg : HostCfg) {x : String} (hx : x ∈ st.servers) :
    x ∈ (connectServerStep outcome st name cfg).1.servers := by
  unfold connectServerStep
  split_ifs <;> simp [hx]

theorem initializeLoop_servers_mono (outcome : String → Bool) :
    ∀ (cfg : List (String × HostCfg)) (st : MgrState) {x : String},
      x ∈ st.servers → x ∈ (initializeLoop outcome st cfg).1.servers := by
  intro cfg
  induction cfg with
  | nil => intro st x hx; exact hx
  | cons e rest ih =>
    intro st x hx
    obtain ⟨name, c⟩ := e
    rw [initializeLoop]
    split_ifs with h1
    · exact ih st hx
    · simp only []
      split_ifs with h2
      · exact ih _ (connectServerStep_servers_mono outcome st name c hx)
      · exact ih _ (connectServerStep_servers_mono outcome st name c hx)

/-- An enabled, non-disabled command host whose connect succeeds ends up
connected, whatever happens with the other entries. -/
theorem initializeLoop_connects (outcome : String → Bool) :
    ∀ (cfg : List (String × HostCfg)) (st : MgrState) (n : String) (c : HostCfg),
      (n, c) ∈ cfg → (cfg.map Prod.fst).Nodup →
      n ∉ st.disabledServers → (c.enabled == some false) = false →
      (n == "builtin") = false → c.hasCommand = true → outcome n = true →
      n ∉ st.servers →
      n ∈ (initializeLoop outcome st cfg).1.servers := by
  intro cfg
  induction cfg with
  | nil => intro st n c hm; simp at hm
  | cons e rest ih =>
    intro st n c hm hnd hdis hen hbi hcmd hoc hsrv
    obtain ⟨m, d⟩ := e
    simp only [List.map_cons, List.nodup_cons] at hnd
    rcases List.mem_cons.mp hm with hh | hh
    · injection hh with h1 h2
      subst h1; subst h2
      rw [initializeLoop]
      rw [if_neg (by simp [hdis, hen])]
      simp only []
      have hstep : connectServerStep outcome st n c =
          ({ st with servers := st.servers ++ [n] }, [MgrOp.connectOk n], false) := by
        unfold connectServerStep
        rw [if_neg (by simp [hsrv]), if_neg (by simp [hbi]), if_pos hcmd, if_pos hoc]
      rw [hstep]
      simp only []
      rw [if_neg (by simp)]
      refine initializeLoop_servers_mono outcome rest _ ?_
      simp
    · have hne : n ≠ m := fun he => by
        subst he
        exact hnd.1 (List.mem_map.mpr ⟨(n, c), hh, rfl⟩)
      rw [initializeLoop]
      split_ifs with h1
      · exact ih st n c hh hnd.2 hdis hen hbi hcmd hoc hsrv
      · simp only []
        have hdis2 : n ∉ (connectServerStep outcome st m d).1.disabledServers := by
          rw [connectServerStep_disabled]
          exact hdis
        have hsrv2 : n ∉ (connectServerStep outcome st m d).1.servers := by
          unfold connectServerStep
          split_ifs <;> simp [hsrv, hne]
        split_ifs with h2
        · exact ih _ n c hh hnd.2 hdis2 hen hbi hcmd hoc hsrv2
        · exact ih _ n c hh hnd.2 hdis2 hen hbi hcmd hoc hsrv2

/-- C5 counterexample (the spec's own scenario): old hosts `{A, B}`, new
configuration `{A, C}`.  The reported diff is right, but host `A`
(unchanged, in the intersection) is disconnected by the full
shutdown-and-reinitialize, contrary to the claim that intersection hosts
are left connected. -/
theorem ronin_c5_counterexample :
    (((mcpReload (fun _ => true) (MgrState.mk ["A", "B"] [] true)
        [("A", HostCfg.mk none (some "x")),
          ("C", HostCfg.mk none (some "x"))]).2.existing == ["A"]) = true) ∧
    (((mcpReload (fun _ => true) (MgrState.mk ["A", "B"] [] true)
        [("A", HostCfg.mk none (some "x")),
          ("C", HostCfg.mk none (some "x"))]).2.removed == ["B"]) = true) ∧
    (((mcpReload (fun _ => true) (MgrState.mk ["A", "B"] [] true)
        [("A", HostCfg.mk none (some "x")),
          ("C", HostCfg.mk none (some "x"))]).2.added == ["C"]) = true) ∧
    (((mcpReload (fun _ => true) (MgrState.mk ["A", "B"] [] true)
        [("A", HostCfg.mk none (some "x")),
          ("C", HostCfg.mk none (some "x"))]).2.trace.contains
        (MgrOp.disconnect "A")) = true) := by
  refine ⟨by decide, by decide, by decide, by decide⟩

/-- C5 (amended): `mcpReload` computes and reports the diff
`added = C \ O`, `removed = O \ C`, `existing = O ∩ C`, but then
disconnects every previously connected host (the intersection included)
via a full `shutdown()` and reconnects from the new configuration;
per-host connect failures are caught and counted, and any enabled,
non-disabled command host whose own connect succeeds ends up connected
regardless of the other hosts. -/
theorem ronin_c5_reload_behavior (outcome : String → Bool) (st : MgrState)
    (cfg : List (String × HostCfg)) :
    (∀ n ∈ st.servers, MgrOp.disconnect n ∈ (mcpReload outcome st cfg).2.trace) ∧
    ((mcpReload outcome st cfg).2.added
        = (cfg.map Prod.fst).filter (fun n => !st.servers.contains n)) ∧
    ((mcpReload outcome st cfg).2.removed
        = st.servers.filter (fun n => !(cfg.map Prod.fst).contains n)) ∧
    ((mcpReload outcome st cfg).2.existing
        = (cfg.map Prod.fst).filter (fun n => st.servers.contains n)) ∧
    (∀ n c, (n, c) ∈ cfg → (cfg.map Prod.fst).Nodup →
      n ∉ st.disabledServers → (c.enabled == some false) = false →
      (n == "builtin") = false → c.hasCommand = true → outcome n = true →
      n ∈ (mcpReload outcome st cfg).1.servers) := by
  refine ⟨?_, rfl, rfl, rfl, ?_⟩
  · intro n hn
    simp only [mcpReload, shutdownMgr, List.mem_append]
    exact Or.inl (List.mem_map.mpr ⟨n, hn, rfl⟩)
  · intro n c hm hnd hdis hen hbi hcmd hoc
    simp only [mcpReload, shutdownMgr, initializeMgr]
    rw [if_neg (by simp)]
    exact initializeLoop_connects outcome cfg _ n c hm hnd hdis hen hbi hcmd hoc
      (by simp)

/-- C5 amended-claim witness: the `{A,B} → {A,C}` scenario instantiating
every hypothesis; host `C` ends connected and the diff is as reported. -/
theorem ronin_c5_witness :
    (("C", HostCfg.mk none (some "x")) ∈
        [("A", HostCfg.mk none (some "x")), ("C", HostCfg.mk none (some "x"))]) ∧
    ("C" ∈ (mcpReload (fun _ => true) (MgrState.mk ["A", "B"] [] true)
        [("A", HostCfg.mk none (some "x")),
          ("C", HostCfg.mk none (some "x"))]).1.servers) :=
  ⟨by simp, (ronin_c5_reload_behavior (fun _ => true)
      (MgrState.mk ["A", "B"] [] true)
      [("A", HostCfg.mk none (some "x")), ("C", HostCfg.mk none (some "x"))]).2.2.2.2
    "C" (HostCfg.mk none (some "x")) (by simp) (by decide) (by simp) (by decide)
    (by decide) (by decide) (by decide)⟩

/-! ### Environment expansion lemmas and claim C10 -/

theorem takeWhile_word_append {w tail : List Char}
    (hw : ∀ ch ∈ w, isWordChar ch = true) :
    (w ++ '\x7d' :: tail).takeWhile isWordChar = w := by
  induction w with
  | nil =>
    simp only [List.nil_append, List.takeWhile_cons]
    rw [if_neg (by decide)]
  | cons a w ih =>
    simp only [List.cons_append, List.takeWhile_cons]
    rw [if_pos (hw a (List.mem_cons_self a w))]
    rw [ih (fun ch hc => hw ch (List.mem_cons_of_mem a hc))]

/-- One full `$\x7bNAME\x7d` placeholder at the head of the scan is
consumed and replaced in one step. -/
theorem expandScan_placeholder (parent : String → Option String)
    (w tail : List Char) (hne : w ≠ [])
    (hw : ∀ ch ∈ w, isWordChar ch = true) :
    expandScan parent ('$' :: '\x7b' :: (w ++ '\x7d' :: tail)) =
      expandPlaceholder parent (String.mk w) ++ expandScan parent tail := by
  rw [expandScan]
  rw [if_pos rfl]
  rw [takeWhile_word_append hw]
  rw [if_neg (by simpa using hne)]
  have hdrop : (w ++ '\x7d' :: tail).drop w.length = '\x7d' :: tail :=
    List.drop_left w ('\x7d' :: tail)
  split
  · rename_i tail2 hr2
    rw [hdrop] at hr2
    injection hr2 with h2 h3
    rw [← h3]
  · rename_i hcontra
    exact absurd hdrop (fun h => hcontra tail h)

/-- C10 counterexample: a variable that is set in the parent environment
but set to the empty string is NOT substituted — `process.env[envVar] ||
match` treats the empty string as unset and leaves the literal
placeholder text. -/
theorem ronin_c10_counterexample :
    ((fun n => if n = "VAR" then some "" else none) "VAR" = some "") ∧
    (expandValue (fun n => if n = "VAR" then some "" else none) "$\x7bVAR\x7d"
      = "$\x7bVAR\x7d") ∧
    ("$\x7bVAR\x7d" : String) ≠ "" := by
  refine ⟨by simp, ?_, by decide⟩
  unfold expandValue
  have h1 : ("$\x7bVAR\x7d" : String).data
      = '$' :: '\x7b' :: ("VAR".data ++ '\x7d' :: []) := by decide
  rw [h1, expandScan_placeholder _ _ _ (by decide) (by decide)]
  rw [show expandScan (fun n => if n = "VAR" then some "" else none) [] = []
    from by rw [expandScan]]
  rw [show expandPlaceholder (fun n => if n = "VAR" then some "" else none)
      (String.mk "VAR".data) = '$' :: '\x7b' :: ("VAR".data ++ ['\x7d'])
    from by simp [expandPlaceholder]]
  decide

/-- C10 (amended): a `$\x7bVAR\x7d` placeholder is replaced by the parent
value exactly when `VAR` is set to a NONEMPTY string; when `VAR` is unset
or set to the empty string the literal placeholder text is kept; and
parent variables not mentioned in the configured environment pass through
`buildEnv` unchanged, while configured keys get their expanded value. -/
theorem ronin_c10_env_expansion (parent : String → Option String)
    (name : String) (tail : List Char)
    (hne : name.data ≠ []) (hw : ∀ ch ∈ name.data, isWordChar ch = true) :
    (expandScan parent ('$' :: '\x7b' :: (name.data ++ '\x7d' :: tail)) =
      expandPlaceholder parent name ++ expandScan parent tail) ∧
    (∀ v, parent name = some v → v ≠ "" → expandPlaceholder parent name = v.data) ∧
    (∀ v, parent name = some v → v = "" →
      expandPlaceholder parent name = '$' :: '\x7b' :: (name.data ++ ['\x7d'])) ∧
    (parent name = none →
      expandPlaceholder parent name = '$' :: '\x7b' :: (name.data ++ ['\x7d'])) ∧
    (∀ (cfgEnv : List (String × String)) (k : String),
      cfgEnv.lookup k = none → buildEnv parent cfgEnv k = parent k) ∧
    (∀ (cfgEnv : List (String × String)) (k v : String),
      cfgEnv.lookup k = some v →
      buildEnv parent cfgEnv k = some (expandValue parent v)) := by
  refine ⟨?_, ?_, ?_, ?_, ?_, ?_⟩
  · have := expandScan_placeholder parent name.data tail hne hw
    simpa using this
  · intro v hv hvne
    simp [expandPlaceholder, hv, hvne]
  · intro v hv hveq
    subst hveq
    simp [expandPlaceholder, hv]
  · intro hv
    simp [expandPlaceholder, hv]
  · intro cfgEnv k hl
    simp [buildEnv, hl]
  · intro cfgEnv k v hl
    simp [buildEnv, hl]

/-- C10 witness: `HOME` set to a nonempty value in the parent environment
is substituted into the configured value. -/
theorem ronin_c10_witness :
    (("HOME" : String).data ≠ []) ∧ (∀ ch ∈ ("HOME" : String).data, isWordChar ch = true) ∧
    (expandScan (fun n => if n = "HOME" then some "/root" else none)
        ('$' :: '\x7b' :: (("HOME" : String).data ++ '\x7d' :: [])) =
      expandPlaceholder (fun n => if n = "HOME" then some "/root" else none) "HOME"
        ++ expandScan (fun n => if n = "HOME" then some "/root" else none) []) :=
  ⟨by decide, by decide,
    (ronin_c10_env_expansion (fun n => if n = "HOME" then some "/root" else none)
      "HOME" [] (by decide) (by decide)).1⟩

/-! ### Claim C6: built-in tool execution -/

/-- C6 counterexample: a `web_request` input whose `method` violates the
declared schema enum (`PATCH`) is not rejected — no schema validation
happens — and the handler executes the request, returning a plain success
result with no `isError` flag. -/
theorem ronin_c6_counterexample :
    (specSchemaValid webRequestSchema
      (JVal.jobj [("url", JVal.jstr "http://example.com"),
        ("method", JVal.jstr "PATCH")]) = false) ∧
    (executeTool httpOkWorld defaultEnabledTools "web_request"
        (JVal.jobj [("url", JVal.jstr "http://example.com"),
          ("method", JVal.jstr "PATCH")]) =
      Except.ok (JVal.jobj [("status", JVal.jnum "200"),
        ("statusText", JVal.jstr "OK"), ("headers", JVal.jobj []),
        ("data", JVal.jnull)])) ∧
    ((JVal.jobj [("status", JVal.jnum "200"), ("statusText", JVal.jstr "OK"),
      ("headers", JVal.jobj []), ("data", JVal.jnull)]).getF "isError" = none) := by
  refine ⟨by decide, rfl, rfl⟩

/-- C6 (amended): no schema validation precedes execution (see the
counterexample); what executeTool does guarantee for a registered tool is
that it never throws — every handler failure is returned as a structured
`\x7b error, isError: true \x7d` object. -/
theorem ronin_c6_execute_no_throw (w : HostWorld) (enabledTools : List String)
    (name : String) (input : JVal)
    (hreg : ((builtinTools enabledTools).lookup name).isSome = true) :
    (∃ r, executeTool w enabledTools name input = Except.ok r) ∧
    (∀ e, runHandler w name input = Except.error e →
      executeTool w enabledTools name input = Except.ok (jErrObj e)) := by
  constructor
  · unfold executeTool
    rw [if_pos hreg]
    cases runHandler w name input with
    | ok r => exact ⟨r, rfl⟩
    | error e => exact ⟨jErrObj e, rfl⟩
  · intro e he
    unfold executeTool
    rw [if_pos hreg, he]

/-- C6 amended-claim witness: `file_read` with an input missing the
required `path`; the handler throws and the error comes back as a
structured result, not an exception. -/
theorem ronin_c6_witness :
    (((builtinTools defaultEnabledTools).lookup "file_read").isSome = true) ∧
    (runHandler httpOkWorld "file_read" (JVal.jobj []) =
      Except.error "The \"path\" argument must be of type string") ∧
    (executeTool httpOkWorld defaultEnabledTools "file_read" (JVal.jobj []) =
      Except.ok (jErrObj "The \"path\" argument must be of type string")) :=
  ⟨by decide, rfl,
    (ronin_c6_execute_no_throw httpOkWorld defaultEnabledTools "file_read"
      (JVal.jobj []) (by decide)).2
      "The \"path\" argument must be of type string" rfl⟩

/-! ### C2: post-round message assembly -/

/-- `postStream` in its enabled branch: one assistant message followed by
one user message per tool-use block. -/
theorem postStream_spec (st : RoundSt) (hused : st.usedTools = true)
    (hne : st.toolUseBlocks.isEmpty = false) :
    postStream st =
      (Msg.mk "assistant"
          ((if !(jsTrimStr st.assistantResponse == "") then
              [MBlock.textB st.assistantResponse] else []) ++
            st.toolUseBlocks.map (fun b =>
              MBlock.toolUseB b.tid b.tname b.tinput)) ::
        st.toolUseBlocks.map (fun b =>
          Msg.mk "user" [MBlock.toolResultB b.tid (resultForApi b.tresult)]),
        false, [RFrag.roundSep]) := by
  unfold postStream
  rw [hused, hne]
  rfl

set_option maxRecDepth 10000 in
/-- C2 counterexample: a round with two finalized tool calls appends one
assistant turn and then TWO user-role turns (one tool-result block each),
not the single user turn holding both paired results that the claim
promises. -/
theorem ronin_c2_counterexample :
    ((runRound roundCtxNoCli (mkRoundSt (PermCache.mk [] false) [])
        [twoCallStream.data]).2.2.2.1.countP (fun m => m.role == "user")) = 2 ∧
    ((runRound roundCtxNoCli (mkRoundSt (PermCache.mk [] false) [])
        [twoCallStream.data]).2.2.2.1.length) = 3 := by decide

/-- C2 (amended): after a round with N >= 1 finalized tool calls the code
appends exactly one assistant turn (accumulated text block when the
trimmed text is nonempty, then all N tool-use blocks in arrival order)
followed by N separate user-role turns, the i-th holding exactly the
tool-result block paired with the i-th call, and resubmits (conversation
not complete). -/
theorem ronin_c2_round_assembly (ctx : RoundCtx) (st0 : RoundSt)
    (chunks : List (List Char))
    (hused : (runRound ctx st0 chunks).1.usedTools = true)
    (hne : (runRound ctx st0 chunks).1.toolUseBlocks.isEmpty = false) :
    (runRound ctx st0 chunks).2.2.2.1 =
      Msg.mk "assistant"
          ((if !(jsTrimStr (runRound ctx st0 chunks).1.assistantResponse == "")
              then [MBlock.textB (runRound ctx st0 chunks).1.assistantResponse]
              else []) ++
            (runRound ctx st0 chunks).1.toolUseBlocks.map (fun b =>
              MBlock.toolUseB b.tid b.tname b.tinput)) ::
        (runRound ctx st0 chunks).1.toolUseBlocks.map (fun b =>
          Msg.mk "user" [MBlock.toolResultB b.tid (resultForApi b.tresult)]) ∧
    ((runRound ctx st0 chunks).2.2.2.1.countP
      (fun m => m.role == "assistant")) = 1 ∧
    ((runRound ctx st0 chunks).2.2.2.1.countP (fun m => m.role == "user")) =
      (runRound ctx st0 chunks).1.toolUseBlocks.length ∧
    (runRound ctx st0 chunks).2.2.2.2 = false := by
  have hm : (runRound ctx st0 chunks).2.2.2.1 =
      (postStream (runRound ctx st0 chunks).1).1 := rfl
  have hc : (runRound ctx st0 chunks).2.2.2.2 =
      (postStream (runRound ctx st0 chunks).1).2.1 := rfl
  rw [hm, hc, postStream_spec _ hused hne]
  refine ⟨rfl, ?_, ?_, rfl⟩
  · simp [List.countP_cons, List.countP_map, Function.comp]
  · simp [List.countP_cons, List.countP_map, Function.comp]

set_option maxRecDepth 10000 in
/-- C2 witness: the two-call round used tools, has a nonempty block list,
and yields one user turn per call with the round resubmitted. -/
theorem ronin_c2_witness :
    (runRound roundCtxNoCli (mkRoundSt (PermCache.mk [] false) [])
        [twoCallStream.data]).1.usedTools = true ∧
    (runRound roundCtxNoCli (mkRoundSt (PermCache.mk [] false) [])
        [twoCallStream.data]).1.toolUseBlocks.isEmpty = false ∧
    ((runRound roundCtxNoCli (mkRoundSt (PermCache.mk [] false) [])
        [twoCallStream.data]).2.2.2.1.countP (fun m => m.role == "user")) =
      (runRound roundCtxNoCli (mkRoundSt (PermCache.mk [] false) [])
        [twoCallStream.data]).1.toolUseBlocks.length ∧
    (runRound roundCtxNoCli (mkRoundSt (PermCache.mk [] false) [])
        [twoCallStream.data]).2.2.2.2 = false :=
  ⟨by decide, by decide,
    (ronin_c2_round_assembly roundCtxNoCli (mkRoundSt (PermCache.mk [] false) [])
      [twoCallStream.data] (by decide) (by decide)).2.2⟩

/-! ### C3: tool call with invalid argument JSON -/

set_option maxRecDepth 10000 in
/-- C3 (code bug): on a finalized tool call whose accumulated argument
text `\x7binvalid` is not valid JSON, the round yields an error fragment
but synthesizes NO tool-result block at all (the catch handler itself
re-parses the invalid text when building the error block, throws again,
and the per-line catch swallows it, skipping `currentToolUse = null`):
the call is dropped, `currentToolUse` stays dangling, the tool never
executes, no messages are appended, and the conversation ends with no
chance for the model to retry. -/
theorem ronin_c3_parse_failure_drop :
    ((runRound roundCtxNoCli (mkRoundSt (PermCache.mk [] false) [])
        [invalidJsonStream.data]).1.toolUseBlocks.length = 0) ∧
    (((runRound roundCtxNoCli (mkRoundSt (PermCache.mk [] false) [])
        [invalidJsonStream.data]).1.currentToolUse.map
          (fun p => p.pinput)).getD "" = "\x7binvalid") ∧
    ((jsonParse "\x7binvalid").isNone = true) ∧
    ((runRound roundCtxNoCli (mkRoundSt (PermCache.mk [] false) [])
        [invalidJsonStream.data]).2.1.contains RFrag.errorText = true) ∧
    ((runRound roundCtxNoCli (mkRoundSt (PermCache.mk [] false) [])
        [invalidJsonStream.data]).2.2.1.isEmpty = true) ∧
    ((runRound roundCtxNoCli (mkRoundSt (PermCache.mk [] false) [])
        [invalidJsonStream.data]).2.2.2.1.length = 0) ∧
    ((runRound roundCtxNoCli (mkRoundSt (PermCache.mk [] false) [])
        [invalidJsonStream.data]).2.2.2.2 = true) := by decide

/-! ### C4: open tool call at turn end -/

/-- `flushRound` only ever extends the assistant text: it never touches
the open call or the recorded blocks. -/
theorem flushRound_fields (st : RoundSt) (carry : List Char) :
    (flushRound st carry).1.currentToolUse = st.currentToolUse ∧
    (flushRound st carry).1.toolUseBlocks = st.toolUseBlocks := by
  unfold flushRound
  repeat' split
  all_goals exact ⟨rfl, rfl⟩

set_option maxRecDepth 10000 in
/-- C4 counterexample: a stream that opens a tool call, delivers its full
argument JSON, but ends the turn without a `content_block_stop`: the call
is NOT closed implicitly at turn end - it is never finalized (no block,
no execution, no messages) and the still-open `currentToolUse` is simply
dropped as the round completes the conversation. -/
theorem ronin_c4_counterexample :
    ((runRound roundCtxNoCli (mkRoundSt (PermCache.mk [] false) [])
        [unterminatedCallStream.data]).1.currentToolUse.isSome = true) ∧
    ((runRound roundCtxNoCli (mkRoundSt (PermCache.mk [] false) [])
        [unterminatedCallStream.data]).1.toolUseBlocks.length = 0) ∧
    ((runRound roundCtxNoCli (mkRoundSt (PermCache.mk [] false) [])
        [unterminatedCallStream.data]).2.2.1.isEmpty = true) ∧
    ((runRound roundCtxNoCli (mkRoundSt (PermCache.mk [] false) [])
        [unterminatedCallStream.data]).2.2.2.1.length = 0) ∧
    ((runRound roundCtxNoCli (mkRoundSt (PermCache.mk [] false) [])
        [unterminatedCallStream.data]).2.2.2.2 = true) := by decide

/-- C4 (amended): a `message_stop` record leaves the machine state - in
particular any still-open `currentToolUse` and the finalized block list -
completely unchanged and merely ends the stream loop; the end-of-stream
flush likewise never closes or finalizes an open call.  There is no
defensive implicit completion at turn end. -/
theorem ronin_c4_turn_end_drops_open_call (ctx : RoundCtx) (st : RoundSt)
    (d : JVal) (h : typeIs d "message_stop" = true) :
    handleData ctx st d = (st, [], [], true) ∧
    ∀ carry, (flushRound st carry).1.currentToolUse = st.currentToolUse ∧
      (flushRound st carry).1.toolUseBlocks = st.toolUseBlocks := by
  refine ⟨?_, fun carry => flushRound_fields st carry⟩
  have h1 : typeIs d "content_block_start" = false :=
    fieldIsStr_ne h (by decide)
  have h2 : typeIs d "content_block_delta" = false :=
    fieldIsStr_ne h (by decide)
  have h3 : typeIs d "content_block_stop" = false :=
    fieldIsStr_ne h (by decide)
  unfold handleData
  rw [if_neg (by simp [h1]), if_neg (by simp [h2]), if_neg (by simp [h3]),
    if_pos h]

/-- C4 witness: a concrete `message_stop` record applied to a fresh round
state. -/
theorem ronin_c4_witness :
    typeIs (JVal.jobj [("type", JVal.jstr "message_stop")]) "message_stop"
      = true ∧
    handleData roundCtxNoCli (mkRoundSt (PermCache.mk [] false) [])
        (JVal.jobj [("type", JVal.jstr "message_stop")]) =
      (mkRoundSt (PermCache.mk [] false) [], [], [], true) :=
  ⟨by decide,
    (ronin_c4_turn_end_drops_open_call roundCtxNoCli
      (mkRoundSt (PermCache.mk [] false) [])
      (JVal.jobj [("type", JVal.jstr "message_stop")]) (by decide)).1⟩
